import Mathlib

/-!
Verification of the route-finding search infrastructure of the CSE175
programming assignments (route.py, ucost.py, astar.py, greedy.py,
heuristic.py, bfs.py, dfs.py).

Python dictionaries are embedded as association lists (`List (key × value)`)
whose lookup returns the first binding; `dict.setdefault` is embedded as a
function returning the value together with the (possibly extended) list,
because `setdefault` mutates the dictionary when the key is absent.  Python
floats are embedded as rationals (`ℚ`) except for `math.sqrt`, which forces
the heuristic-construction values into `ℝ`.  Methods that mutate the map
return the updated map alongside their result.  Uncaught Python exceptions
are embedded as `Except.error` results (or `Option.none` for expansion).
-/

/-- Location names (Python strings used as dictionary keys). -/
abbrev Loc := String

/-- Road-segment names (Python strings). -/
abbrev Road := String

/-- The heuristic object passed to `greedy_search`/`a_star_search` is used
only through its `h_cost` method on a concrete location, so it is embedded
as a total function from locations to costs. -/
abbrev HFun := Loc → ℚ

/-- Embedding of Python `dict.setdefault(k, d)`: return the stored value if
`k` is present, otherwise insert `(k, d)` (dict insertion order appends at
the end) and return `d`.  The second component is the updated dictionary. -/
def alistSetdefault {β : Type} (l : List (Loc × β)) (k : Loc) (d : β) : β × List (Loc × β) :=
  match l.lookup k with
  | some v => (v, l)
  | none => (d, l ++ [(k, d)])

/-- `RoadMap` from route.py: road-segment costs indexed by start and end
location, road names indexed by start location, and Cartesian coordinates
of locations. -/
structure RoadMap where
  connection_dict : List (Loc × List (Loc × ℚ))
  road_dict : List (Loc × List (Road × Loc))
  loc_dict : List (Loc × (ℚ × ℚ))
deriving DecidableEq

/-- `RoadMap.get(start)` (the `end=None` case): `setdefault` the successor
dictionary for `start` and return it, together with the updated map. -/
def RoadMap.get_dict (m : RoadMap) (start : Loc) : List (Loc × ℚ) × RoadMap :=
  let p := alistSetdefault m.connection_dict start []
  (p.1, { m with connection_dict := p.2 })

/-- `RoadMap.get(start, end)`: the successor dictionary is obtained with
`setdefault` (mutating on absent `start`) and the cost is looked up in it. -/
def RoadMap.get (m : RoadMap) (start finish : Loc) : Option ℚ × RoadMap :=
  let p := alistSetdefault m.connection_dict start []
  (p.1.lookup finish, { m with connection_dict := p.2 })

/-- `RoadMap.get_result(start)` (the `road=None` case). -/
def RoadMap.get_result_dict (m : RoadMap) (start : Loc) : List (Road × Loc) × RoadMap :=
  let p := alistSetdefault m.road_dict start []
  (p.1, { m with road_dict := p.2 })

/-- `RoadMap.get_result(start, road)`: resulting location of taking the
named road from `start`; `setdefault` mutates on an absent `start`. -/
def RoadMap.get_result (m : RoadMap) (start : Loc) (road : Road) : Option Loc × RoadMap :=
  let p := alistSetdefault m.road_dict start []
  (p.1.lookup road, { m with road_dict := p.2 })

/-- The loop of `RoadMap.path_cost`: walk the named road segments from the
current location, accumulating cost.  An unresolved road name returns `0.0`
immediately; a resolved step whose cost is missing from `connection_dict`
makes Python add `None` to a float, an uncaught `TypeError`, embedded as
`Except.error`. -/
def pathCostGo (m : RoadMap) (total : ℚ) (loc : Loc) : List Road → Except String ℚ × RoadMap
  | [] => (.ok total, m)
  | road :: rest =>
    match m.get_result loc road with
    | (none, m₁) => (.ok 0, m₁)
    | (some next_loc, m₁) =>
      match m₁.get loc next_loc with
      | (none, m₂) => (.error "TypeError: unsupported operand type(s)", m₂)
      | (some c, m₂) => pathCostGo m₂ (total + c) next_loc rest

/-- `RoadMap.path_cost(start, road_list)` from route.py. -/
def RoadMap.path_cost (m : RoadMap) (start : Loc) (road_list : List Road) :
    Except String ℚ × RoadMap :=
  pathCostGo m 0 start road_list

/-- `RoadMap.location_coordinates(loc)`: `setdefault` the coordinates to
`(0.0, 0.0)` (mutating when `loc` is absent), then Python's
`if x and y` succeeds only when both components are truthy, i.e. nonzero;
otherwise an exception is raised.  The mutated map is returned in both
cases since the `setdefault` happens before the check. -/
def RoadMap.location_coordinates (m : RoadMap) (loc : Loc) :
    Except String (ℚ × ℚ) × RoadMap :=
  let p := alistSetdefault m.loc_dict loc (0, 0)
  let m' : RoadMap := { m with loc_dict := p.2 }
  if p.1.1 ≠ 0 ∧ p.1.2 ≠ 0 then (.ok p.1, m') else
    (.error ("Unknown location - " ++ loc), m')

/-- Pure view of the named-road successors of a location (an absent key
reads the same as an empty successor dictionary). -/
def succsOf (m : RoadMap) (loc : Loc) : List (Road × Loc) :=
  (m.road_dict.lookup loc).getD []

/-- Pure view of the road-segment cost from `a` to `b`. -/
def costOf (m : RoadMap) (a b : Loc) : Option ℚ :=
  ((m.connection_dict.lookup a).getD []).lookup b

/-- Pure walk of a named-road sequence: the list of `(from, to)` location
pairs traversed, or `none` if some step does not resolve. -/
def walkLocs (m : RoadMap) : Loc → List Road → Option (List (Loc × Loc))
  | _, [] => some []
  | loc, road :: rest =>
    match (succsOf m loc).lookup road with
    | none => none
    | some next_loc => (walkLocs m next_loc rest).map (fun l => (loc, next_loc) :: l)

/-- Map well-formedness: every named road segment has a cost entry.  Maps
built through `add_road` satisfy this; without it Python's search and
`path_cost` raise `TypeError` when adding `None` to a float. -/
def WFC (m : RoadMap) : Prop :=
  ∀ se ∈ m.road_dict, ∀ re ∈ se.2, (costOf m se.1 re.2).isSome

instance (m : RoadMap) : Decidable (WFC m) := by
  unfold WFC; exact inferInstance

/-- One named-road edge of the map, as a relation on locations. -/
def edgeOf (m : RoadMap) (a b : Loc) : Prop :=
  ∃ r, (succsOf m a).lookup r = some b

/-- `RouteProblem` from route.py. -/
structure RouteProblem where
  map : RoadMap
  start : Loc
  goal : Option Loc

/-- `RouteProblem.actions(loc)`: the road-segment names leaving `loc`
(the keys of `map.get_result(loc)`, whose `setdefault` may mutate). -/
def RouteProblem.actions (p : RouteProblem) (loc : Loc) : List Road × RouteProblem :=
  let q := p.map.get_result_dict loc
  (q.1.map Prod.fst, { p with map := q.2 })

/-- `RouteProblem.result(loc, road)`. -/
def RouteProblem.result (p : RouteProblem) (loc : Loc) (road : Road) :
    Option Loc × RouteProblem :=
  let q := p.map.get_result loc road
  (q.1, { p with map := q.2 })

/-- `RouteProblem.is_goal(loc)`: equality with the stored goal; a `None`
goal compares unequal to every location. -/
def RouteProblem.is_goal (p : RouteProblem) (loc : Loc) : Bool :=
  p.goal == some loc

/-- `RouteProblem.action_cost(start, end)`. -/
def RouteProblem.action_cost (p : RouteProblem) (s e : Loc) :
    Option ℚ × RouteProblem :=
  let q := p.map.get s e
  (q.1, { p with map := q.2 })

/-- Search depth limit from route.py. -/
def depth_limit : Nat := 20

/-- `Node` from route.py: location, optional parent, road taken, accumulated
path cost, cached heuristic value, heuristic function, and depth. -/
inductive Node : Type where
  | mk : Loc → Option Node → Option Road → ℚ → ℚ → Option HFun → Nat → Node

def Node.loc : Node → Loc
  | Node.mk l _ _ _ _ _ _ => l

def Node.parent : Node → Option Node
  | Node.mk _ p _ _ _ _ _ => p

def Node.road : Node → Option Road
  | Node.mk _ _ r _ _ _ _ => r

def Node.path_cost : Node → ℚ
  | Node.mk _ _ _ c _ _ _ => c

def Node.h_eval : Node → ℚ
  | Node.mk _ _ _ _ h _ _ => h

def Node.h_fun : Node → Option HFun
  | Node.mk _ _ _ _ _ f _ => f

def Node.depth : Node → Nat
  | Node.mk _ _ _ _ _ _ d => d

/-- `Node.__init__`: the depth is `parent.depth + 1`, or `0` for a root. -/
def Node.make (loc : Loc) (parent : Option Node) (road : Option Road)
    (path_cost h_eval : ℚ) (h_fun : Option HFun) : Node :=
  Node.mk loc parent road path_cost h_eval h_fun
    (match parent with
     | none => 0
     | some p => p.depth + 1)

/-- `Node.__eq__`: nodes are equal iff their locations are equal (the
`isinstance` guard holds since both arguments are nodes here). -/
def Node.beq (a b : Node) : Bool := a.loc == b.loc

/-- `Node.__hash__`: the hash of the node's location. -/
def Node.hashv (n : Node) : UInt64 := n.loc.hash

/-- `Node.value(sort_by)`: path cost for `'g'`, heuristic value for `'h'`,
their sum for `'f'`, and `0.0` for any other tag. -/
def Node.value (n : Node) (sort_by : String) : ℚ :=
  if sort_by = "g" then n.path_cost
  else if sort_by = "h" then n.h_eval
  else if sort_by = "f" then n.path_cost + n.h_eval
  else 0

/-- `Node.child_node(problem, road, h_fun)`: resolve the child location and
cost (an unresolved location or missing cost makes Python add `None` to a
float, an uncaught `TypeError`, embedded as `none`), inherit the heuristic
function unless one is supplied, and evaluate the heuristic at the child. -/
def Node.child_node (n : Node) (p : RouteProblem) (road : Road)
    (h_fun? : Option HFun) : Option (Node × RouteProblem) :=
  let q := p.result n.loc road
  match q.1 with
  | none => none
  | some child_loc =>
    let q₂ := q.2.action_cost n.loc child_loc
    match q₂.1 with
    | none => none
    | some c =>
      let child_h_fun : Option HFun :=
        match h_fun? with
        | none => n.h_fun
        | some hf => some hf
      let child_eval : ℚ :=
        match child_h_fun with
        | some hf => hf child_loc
        | none => 0
      some (Node.make child_loc (some n) (some road) (n.path_cost + c)
              child_eval child_h_fun, q₂.2)

/-- The list comprehension of `Node.expand`, threading the problem through
the successive `child_node` calls. -/
def expandGo (n : Node) : List Road → RouteProblem → List Node →
    Option (List Node × RouteProblem)
  | [], p, acc => some (acc, p)
  | road :: rest, p, acc =>
    match n.child_node p road none with
    | none => none
    | some (c, p') => expandGo n rest p' (acc ++ [c])

/-- `Node.expand(problem)`: no children at or beyond the depth limit,
otherwise one child per road segment leaving the node's location.  (The
global `vars.node_expansion_count` counter is write-only and omitted.) -/
def Node.expand (n : Node) (p : RouteProblem) : Option (List Node × RouteProblem) :=
  if n.depth ≥ depth_limit then some ([], p)
  else
    let q := p.actions n.loc
    expandGo n q.1 q.2 []

/-- Strict order on `(key, node)` frontier entries: Python compares the
`(value, node)` tuples componentwise, falling back to `Node.__lt__`, which
compares locations. -/
def entryLT (a b : ℚ × Node) : Prop :=
  a.1 < b.1 ∨ (a.1 = b.1 ∧ a.2.loc < b.2.loc)

instance (a b : ℚ × Node) : Decidable (entryLT a b) := by
  unfold entryLT; exact inferInstance

/-- Select the leftmost minimal entry (with respect to `entryLT`) from
`e :: l`, returning it together with the remaining entries.  This embeds
the observable behaviour of `heapq.heappop`: the heap always yields a
minimal element under the tuple order. -/
def selectMin : (ℚ × Node) → List (ℚ × Node) → (ℚ × Node) × List (ℚ × Node)
  | e, [] => (e, [])
  | e, x :: xs =>
    if entryLT x e then
      let r := selectMin x xs
      (r.1, e :: r.2)
    else
      let r := selectMin e xs
      (r.1, x :: r.2)

/-- `Frontier` from route.py: a priority queue of `(key, node)` pairs,
keyed by the chosen metric.  The heap array is embedded as a list in
insertion order; the heap shape is internal to `heapq` and only the
extracted minima are observable. -/
structure Frontier where
  sort_by : String
  fringe : List (ℚ × Node)

/-- `Frontier.__init__(root_node, sort_by)` (heapify of a singleton). -/
def Frontier.init (root_node : Node) (sort_by : String) : Frontier :=
  ⟨sort_by, [(root_node.value sort_by, root_node)]⟩

/-- `Frontier.is_empty()`. -/
def Frontier.is_empty (f : Frontier) : Bool := f.fringe.isEmpty

/-- `Frontier.__contains__` / `Frontier.contains`: membership by location
equality (`Node.__eq__`). -/
def Frontier.contains (f : Frontier) (query : Node) : Bool :=
  f.fringe.any (fun e => e.2.loc == query.loc)

/-- `Frontier.__getitem__(query)`: the key of the first entry whose node
matches `query` by location.  The source raises `KeyError` when no entry
matches; every caller guards the call with `contains`, so the default `0`
is never observed. -/
def Frontier.getItem (f : Frontier) (query : Node) : ℚ :=
  match f.fringe.find? (fun e => e.2.loc == query.loc) with
  | some e => e.1
  | none => 0

/-- Remove the first entry whose node has the given location. -/
def removeFirstEntry : List (ℚ × Node) → Loc → List (ℚ × Node)
  | [], _ => []
  | e :: es, l => if e.2.loc == l then es else e :: removeFirstEntry es l

/-- `Frontier.__delitem__(query)`: delete the first matching entry and
re-heapify (re-heapifying does not change the multiset of entries). -/
def Frontier.delItem (f : Frontier) (query : Node) : Frontier :=
  ⟨f.sort_by, removeFirstEntry f.fringe query.loc⟩

/-- `Frontier.add` for a single node: push `(node.value(sort_by), node)`. -/
def Frontier.add (f : Frontier) (n : Node) : Frontier :=
  ⟨f.sort_by, f.fringe ++ [(n.value f.sort_by, n)]⟩

/-- `Frontier.add` for a list of nodes: push each in order. -/
def Frontier.addAll (f : Frontier) (ns : List Node) : Frontier :=
  ns.foldl Frontier.add f

/-- `Frontier.pop()`: remove and return a minimal entry's node, or `none`
on an empty frontier (where the source raises). -/
def Frontier.pop (f : Frontier) : Option (Node × Frontier) :=
  match f.fringe with
  | [] => none
  | e :: es =>
    let r := selectMin e es
    some (r.1.2, ⟨f.sort_by, r.2⟩)

/-- Successive extraction of all entries in pop order (fuel-indexed; the
fuel is instantiated with the fringe length). -/
def popSeqAux : Nat → List (ℚ × Node) → List (ℚ × Node)
  | 0, _ => []
  | _ + 1, [] => []
  | n + 1, e :: es =>
    let r := selectMin e es
    r.1 :: popSeqAux n r.2

/-- The `(key, node)` trace of repeatedly popping the frontier to
emptiness. -/
def Frontier.popSeq (f : Frontier) : List (ℚ × Node) :=
  popSeqAux f.fringe.length f.fringe

/-- Modelled from the spec: the `Frontier` of Assignment 0's route.py is
not in the sources (only bfs.py and dfs.py, its callers, are).  Per the
spec's algorithm table, BFS uses it as a FIFO queue (pop in insertion
order) and DFS, which constructs it with a second argument `True`, as a
LIFO stack (insertion order, reversed at pop). -/
structure PA0Frontier where
  stack : Bool
  fringe : List Node

/-- Modelled from the spec: seed the Assignment 0 frontier with the root. -/
def PA0Frontier.init (root_node : Node) (stack : Bool) : PA0Frontier :=
  ⟨stack, [root_node]⟩

/-- Modelled from the spec: add appends the node in insertion order. -/
def PA0Frontier.add (f : PA0Frontier) (n : Node) : PA0Frontier :=
  ⟨f.stack, f.fringe ++ [n]⟩

/-- Add a list of nodes in order. -/
def PA0Frontier.addAll (f : PA0Frontier) (ns : List Node) : PA0Frontier :=
  ns.foldl PA0Frontier.add f

/-- Modelled from the spec: pop returns the most recently added node when
`stack` is set (LIFO) and the least recently added node otherwise (FIFO);
`none` on an empty frontier. -/
def PA0Frontier.pop (f : PA0Frontier) : Option (Node × PA0Frontier) :=
  if f.stack then
    match f.fringe.getLast? with
    | none => none
    | some n => some (n, ⟨f.stack, f.fringe.dropLast⟩)
  else
    match f.fringe with
    | [] => none
    | n :: rest => some (n, ⟨f.stack, rest⟩)

/-- Fuel-indexed trace of popping the Assignment 0 frontier to emptiness. -/
def popAllAux : Nat → PA0Frontier → List Node
  | 0, _ => []
  | n + 1, f =>
    match f.pop with
    | none => []
    | some (x, f') => x :: popAllAux n f'

/-- The node trace of repeatedly popping the Assignment 0 frontier. -/
def PA0Frontier.popAll (f : PA0Frontier) : List Node :=
  popAllAux f.fringe.length f

/-- The per-child update of `uniform_cost_search` and `a_star_search`
(their loops are textually identical): with repeated-state checking, a
child whose location was already reached is re-queued only when
`frontier.contains(child) and frontier[child] > frontier.__getitem__(child)`
— a comparison of one frontier key with itself. -/
def pqStepUCS (repeat_check : Bool) (st : Frontier × List Node) (child : Node) :
    Frontier × List Node :=
  if repeat_check then
    if st.2.any (fun n => Node.beq n child) then
      if st.1.contains child && decide (st.1.getItem child > st.1.getItem child) then
        ((st.1.delItem child).add child, st.2)
      else st
    else (st.1.add child, st.2 ++ [child])
  else (st.1.add child, st.2)

/-- The per-child update of `greedy_search`: with repeated-state checking a
child is added only if its location has not been reached. -/
def pqStepGreedy (repeat_check : Bool) (st : Frontier × List Node) (child : Node) :
    Frontier × List Node :=
  if repeat_check then
    if st.2.any (fun n => Node.beq n child) then st
    else (st.1.add child, st.2 ++ [child])
  else (st.1.add child, st.2)

/-- The shared `while not frontier.is_empty()` loop of ucost.py, astar.py
and greedy.py, parameterized by the per-child update.  The result is `none`
when the fuel runs out, `some (.error e)` when Python would raise an
uncaught exception, `some (.ok (some n))` for a returned goal node and
`some (.ok none)` for a `return None`. -/
def pqLoop (step : Bool → Frontier × List Node → Node → Frontier × List Node)
    (repeat_check : Bool) :
    Nat → Frontier → List Node → RouteProblem → Option (Except String (Option Node))
  | 0, _, _, _ => none
  | fuel + 1, f, reached, p =>
    match f.pop with
    | none => some (.ok none)
    | some (node, f₁) =>
      if p.is_goal node.loc then some (.ok (some node))
      else
        match node.expand p with
        | none => some (.error "TypeError: unsupported operand type(s)")
        | some (children, p₁) =>
          let st := children.foldl (step repeat_check) (f₁, reached)
          pqLoop step repeat_check fuel st.1 st.2 p₁

/-- `uniform_cost_search(problem, repeat_check)` from ucost.py, with an
explicit fuel parameter for the unbounded `while` loop. -/
def uniform_cost_search (p : RouteProblem) (repeat_check : Bool) (fuel : Nat) :
    Option (Except String (Option Node)) :=
  let node := Node.make p.start none none 0 0 none
  if p.is_goal node.loc then some (.ok (some node))
  else pqLoop pqStepUCS repeat_check fuel (Frontier.init node "g") [node] p

/-- `a_star_search(problem, h, repeat_check)` from astar.py: the root
carries the heuristic function (its cached `h_eval` stays at the default
`0.0`) and the frontier is keyed by `f`.  The loop body is textually
identical to `uniform_cost_search`'s. -/
def a_star_search (p : RouteProblem) (h : HFun) (repeat_check : Bool) (fuel : Nat) :
    Option (Except String (Option Node)) :=
  let node := Node.make p.start none none 0 0 (some h)
  if p.is_goal node.loc then some (.ok (some node))
  else pqLoop pqStepUCS repeat_check fuel (Frontier.init node "f") [node] p

/-- `greedy_search(problem, h, repeat_check)` from greedy.py: frontier
keyed by `h`, skip-if-reached policy. -/
def greedy_search (p : RouteProblem) (h : HFun) (repeat_check : Bool) (fuel : Nat) :
    Option (Except String (Option Node)) :=
  let node := Node.make p.start none none 0 0 (some h)
  if p.is_goal node.loc then some (.ok (some node))
  else pqLoop pqStepGreedy repeat_check fuel (Frontier.init node "h") [node] p

/-- The per-child update shared by bfs.py and dfs.py: with repeated-state
checking, an unvisited child is marked visited and queued; otherwise it is
skipped. -/
def pa0Step (repeat_check : Bool) (st : PA0Frontier × List Node) (child : Node) :
    PA0Frontier × List Node :=
  if repeat_check then
    if st.2.any (fun n => Node.beq n child) then st
    else (st.1.add child, st.2 ++ [child])
  else (st.1.add child, st.2)

/-- The shared `while not queue.is_empty()` loop of bfs.py and dfs.py
(their loop bodies are textually identical; only the frontier's stack flag
differs). -/
def pa0Loop (repeat_check : Bool) :
    Nat → PA0Frontier → List Node → RouteProblem → Option (Except String (Option Node))
  | 0, _, _, _ => none
  | fuel + 1, f, visited, p =>
    match f.pop with
    | none => some (.ok none)
    | some (branch, f₁) =>
      if p.is_goal branch.loc then some (.ok (some branch))
      else
        match branch.expand p with
        | none => some (.error "TypeError: unsupported operand type(s)")
        | some (children, p₁) =>
          let st := children.foldl (pa0Step repeat_check) (f₁, visited)
          pa0Loop repeat_check fuel st.1 st.2 p₁

/-- `BFS(problem, repeat_check)` from bfs.py.  The root goal check
`problem.is_goal(parent)` compares the root *node* (not its location) with
the stored goal location; by `Node.__eq__`'s `isinstance` guard that
comparison is always `False`, so the check never fires. -/
def BFS (p : RouteProblem) (repeat_check : Bool) (fuel : Nat) :
    Option (Except String (Option Node)) :=
  let parent := Node.make p.start none none 0 0 none
  if (false : Bool) then some (.ok (some parent))
  else pa0Loop repeat_check fuel (PA0Frontier.init parent false) [parent] p

/-- `DFS(problem, repeat_check)` from dfs.py: same as `BFS` but the
frontier is constructed with the stack flag (`Frontier(parent, True)`).
The root goal check is the same always-false node-vs-location comparison. -/
def DFS (p : RouteProblem) (repeat_check : Bool) (fuel : Nat) :
    Option (Except String (Option Node)) :=
  let parent := Node.make p.start none none 0 0 none
  if (false : Bool) then some (.ok (some parent))
  else pa0Loop repeat_check fuel (PA0Frontier.init parent true) [parent] p

/-- One edge record collected by the `HeuristicFunction.__init__` scan:
the two endpoints' coordinates and the edge cost. -/
structure ScanEdge where
  x0 : ℚ
  y0 : ℚ
  x1 : ℚ
  y1 : ℚ
  c : ℚ
deriving DecidableEq

/-- Pure view of `location_coordinates` as used during the heuristic scan:
on a successful scan no `setdefault` insertion persists, because any
insertion writes `(0.0, 0.0)` and the truthiness check then raises
immediately. -/
def coordCheck (m : RoadMap) (loc : Loc) : Except String (ℚ × ℚ) :=
  match m.loc_dict.lookup loc with
  | none => .error ("Unknown location - " ++ loc)
  | some xy => if xy.1 ≠ 0 ∧ xy.2 ≠ 0 then .ok xy else .error ("Unknown location - " ++ loc)

/-- The inner loop of the `HeuristicFunction.__init__` scan over the
connections of one location: check both endpoints' coordinates
(`euclidean_distance`), then look up the cost with `map.get` (first
binding); a zero cost makes `distance / cost` raise `ZeroDivisionError`. -/
def scanInner (m : RoadMap) (loc : Loc) (s : List (Loc × ℚ)) :
    List (Loc × ℚ) → List ScanEdge → Except String (List ScanEdge)
  | [], acc => .ok acc
  | ce :: rest, acc =>
    match coordCheck m loc with
    | .error e => .error e
    | .ok xy0 =>
      match coordCheck m ce.1 with
      | .error e => .error e
      | .ok xy1 =>
        match s.lookup ce.1 with
        | none => .error "TypeError: unsupported operand type(s)"
        | some c =>
          if c = 0 then .error "ZeroDivisionError: float division by zero"
          else scanInner m loc s rest (acc ++ [⟨xy0.1, xy0.2, xy1.1, xy1.2, c⟩])

/-- The outer loop of the `HeuristicFunction.__init__` scan over
`loc_dict`: `connection_dict[location]` raises `KeyError` when the
location has no connection entry. -/
def scanEdges (m : RoadMap) : List (Loc × (ℚ × ℚ)) → List ScanEdge →
    Except String (List ScanEdge)
  | [], acc => .ok acc
  | le :: rest, acc =>
    match m.connection_dict.lookup le.1 with
    | none => .error ("KeyError: " ++ le.1)
    | some s =>
      match scanInner m le.1 s s acc with
      | .error e => .error e
      | .ok acc' => scanEdges m rest acc'

/-- The `gas` ratio of one scanned edge: euclidean distance over cost. -/
noncomputable def ratioOf (e : ScanEdge) : ℝ :=
  Real.sqrt (((e.x0 - e.x1) * (e.x0 - e.x1) + (e.y0 - e.y1) * (e.y0 - e.y1) : ℚ)) / (e.c : ℝ)

/-- One step of the `if gas not in self.gasConsumption: append`
accumulation. -/
noncomputable def pyStep (acc : List ℝ) (g : ℝ) : List ℝ :=
  letI : Decidable (g ∈ acc) := Classical.propDecidable _
  if g ∈ acc then acc else acc ++ [g]

/-- The `gasConsumption` accumulation: keep the first occurrence of each
ratio value. -/
noncomputable def pyDedup (l : List ℝ) : List ℝ :=
  l.foldl pyStep []

/-- `HeuristicFunction.__init__(problem)` from heuristic.py, returning the
computed `efficientGas` or the uncaught exception: scan every location's
connections, deduplicate the gas ratios, and take their maximum
(`max([])` raises `ValueError`). -/
noncomputable def heuristicInit (p : RouteProblem) : Except String ℝ :=
  match scanEdges p.map p.map.loc_dict [] with
  | .error e => .error e
  | .ok edges =>
    match pyDedup (edges.map ratioOf) with
    | [] => .error "ValueError: max() arg is an empty sequence"
    | g :: gs => .ok (gs.foldl max g)

/-- Nodes deeper in the tree get exponentially smaller measures; popping a
node and adding at most `B` children (each one level deeper) strictly
decreases the total, which bounds the search loops' fuel. -/
def nodeMeasure (B : Nat) (n : Node) : Nat :=
  (B + 1) ^ (depth_limit + 1 - n.depth)

/-- Total measure of a priority-frontier fringe. -/
def measEntries (B : Nat) (l : List (ℚ × Node)) : Nat :=
  (l.map (fun e => nodeMeasure B e.2)).sum

/-- Total measure of an Assignment 0 fringe. -/
def measNodes (B : Nat) (l : List Node) : Nat :=
  (l.map (nodeMeasure B)).sum

/-- A bound on the number of road segments leaving any location. -/
def maxOut (m : RoadMap) : Nat :=
  m.road_dict.foldr (fun kv a => max kv.2.length a) 0

/-- Observable equality of two maps: the pure road, cost and coordinate
views agree.  The `setdefault` mutations of the lookup operations only
insert empty defaults, which are observationally inert. -/
def PureEq (m m' : RoadMap) : Prop :=
  (∀ l, succsOf m' l = succsOf m l) ∧ (∀ a b, costOf m' a b = costOf m a b) ∧
    m'.loc_dict = m.loc_dict

/-- Observable equality of two problems: same start and goal, observably
equal maps. -/
def Sim (p q : RouteProblem) : Prop :=
  q.start = p.start ∧ q.goal = p.goal ∧ PureEq p.map q.map

/-- Shape of a per-child frontier update: it preserves the sort key and
either leaves the fringe unchanged or appends the child's entry. -/
def StepShape (step : Bool → Frontier × List Node → Node → Frontier × List Node) : Prop :=
  ∀ rc f r c, ((step rc (f, r) c).1.sort_by = f.sort_by) ∧
    ((step rc (f, r) c).1.fringe = f.fringe ∨
      (step rc (f, r) c).1.fringe = f.fringe ++ [(c.value f.sort_by, c)])

/-- A small well-formed example map: two locations joined by named roads
in both directions. -/
def mapW : RoadMap :=
  { connection_dict := [("a", [("b", 3)]), ("b", [("a", 4)])]
    road_dict := [("a", [("r", "b")]), ("b", [("s", "a")])]
    loc_dict := [("a", (1, 2)), ("b", (4, 6))] }

/-- A map whose location `a` has a zero first coordinate but is otherwise
fully connected with positive costs. -/
def mapZeroCoord : RoadMap :=
  { connection_dict := [("a", [("b", 1)]), ("b", [("a", 1)])]
    road_dict := []
    loc_dict := [("a", (0, 1)), ("b", (1, 1))] }

/-- A map with a location that has no entry in `connection_dict`. -/
def mapNoConn : RoadMap :=
  { connection_dict := [("a", [("b", 1)])]
    road_dict := []
    loc_dict := [("a", (1, 2)), ("b", (3, 4))] }

/-- The empty road map. -/
def mapEmpty : RoadMap :=
  { connection_dict := [], road_dict := [], loc_dict := [] }

/-- A problem on the empty map whose goal is therefore unreachable. -/
def pUnreach : RouteProblem :=
  { map := mapEmpty, start := "a", goal := some "b" }

/-- A location has usable coordinates: present in `loc_dict` with both
components nonzero, i.e. `location_coordinates` succeeds without mutating. -/
def coordOK (m : RoadMap) (loc : Loc) : Prop :=
  ∃ xy, coordCheck m loc = .ok xy

instance (m : RoadMap) (loc : Loc) : Decidable (coordOK m loc) := by
  unfold coordOK
  cases h : coordCheck m loc with
  | error e => exact isFalse (fun ⟨xy, hxy⟩ => by cases hxy)
  | ok xy => exact isTrue ⟨xy, rfl⟩

/-- The first-binding cost of `k` in the successor dictionary `s` exists
and is nonzero, so `distance / cost` neither raises `TypeError` nor
`ZeroDivisionError`. -/
def costOK (s : List (Loc × ℚ)) (k : Loc) : Prop :=
  ∃ c, s.lookup k = some c ∧ c ≠ 0

instance (s : List (Loc × ℚ)) (k : Loc) : Decidable (costOK s k) := by
  unfold costOK
  cases h : s.lookup k with
  | none => exact isFalse (fun ⟨c, hc, _⟩ => by cases hc)
  | some c =>
    by_cases hc : c = 0
    · exact isFalse (fun ⟨c', hc', hne⟩ => by
        injection hc' with hcc
        exact hne (hcc ▸ hc))
    · exact isTrue ⟨c, rfl, hc⟩

/-- Every connection of `loc` scans cleanly: both endpoints have usable
coordinates and the looked-up cost is nonzero. -/
def CleanConn (m : RoadMap) (loc : Loc) (s : List (Loc × ℚ)) : Prop :=
  ∀ ce ∈ s, coordOK m loc ∧ coordOK m ce.1 ∧ costOK s ce.1

instance (m : RoadMap) (loc : Loc) (s : List (Loc × ℚ)) :
    Decidable (CleanConn m loc s) := by
  unfold CleanConn
  exact inferInstance

/-- The whole `HeuristicFunction.__init__` scan runs without raising:
every listed location has a connection entry whose edges scan cleanly. -/
def CleanMap (m : RoadMap) : Prop :=
  ∀ le ∈ m.loc_dict, ∃ s, m.connection_dict.lookup le.1 = some s ∧ CleanConn m le.1 s

instance (m : RoadMap) (loc : Loc) :
    Decidable (∃ s, m.connection_dict.lookup loc = some s ∧ CleanConn m loc s) := by
  cases h : m.connection_dict.lookup loc with
  | none => exact isFalse (fun ⟨s, hs, _⟩ => by cases hs)
  | some s =>
    by_cases hc : CleanConn m loc s
    · exact isTrue ⟨s, rfl, hc⟩
    · exact isFalse (fun ⟨s', hs', hc'⟩ => by
        injection hs' with hss
        exact hc (hss ▸ hc'))

instance (m : RoadMap) : Decidable (CleanMap m) := by
  unfold CleanMap
  exact inferInstance

/-- The problem wrapping `mapZeroCoord` used by the C10 counterexample. -/
def pZeroCoord : RouteProblem :=
  { map := mapZeroCoord, start := "a", goal := some "b" }

/-- The problem wrapping `mapNoConn`. -/
def pNoConn : RouteProblem :=
  { map := mapNoConn, start := "a", goal := some "b" }

/-- The problem wrapping the clean example map `mapW`. -/
def pGood : RouteProblem :=
  { map := mapW, start := "a", goal := some "b" }

/-- A root node at location `spot`. -/
def nodeA : Node := Node.make "spot" none none 0 0 none

/-- A node at the same location as `nodeA` but with a different parent,
road, path cost and heuristic value. -/
def nodeB : Node := Node.make "spot" (some nodeA) (some "r") 5 3 none

/-- A node at a different location. -/
def nodeC : Node := Node.make "other" none none 0 0 none

/-- The lookup form of map well-formedness carried through the search
loops: every road resolved through the pure views has a cost. -/
def WFClook (m : RoadMap) : Prop :=
  ∀ loc r e, (succsOf m loc).lookup r = some e → (costOf m loc e).isSome

/-- `m'` extends `m`: observably equal, and every existing dictionary
entry is preserved verbatim (the `setdefault` mutations only append fresh
default entries). -/
def Extends (m m' : RoadMap) : Prop :=
  PureEq m m' ∧
  (∀ k v, m.connection_dict.lookup k = some v → m'.connection_dict.lookup k = some v) ∧
  (∀ k v, m.road_dict.lookup k = some v → m'.road_dict.lookup k = some v)

/-- A map whose location `a` is present with coordinates `(0, 5)`: not the
degenerate `(0, 0)`, but with a zero first component. -/
def mapHalfZero : RoadMap :=
  { connection_dict := [], road_dict := [], loc_dict := [("a", (0, 5))] }

/-! ### Association-list lemmas -/

theorem lookup_append_some {β : Type} {l : List (Loc × β)} (l' : List (Loc × β))
    {k : Loc} {v : β} (h : l.lookup k = some v) : (l ++ l').lookup k = some v := by
  induction l with
  | nil => simp [List.lookup] at h
  | cons x t ih =>
    obtain ⟨a, b⟩ := x
    rw [List.cons_append, List.lookup]
    rw [List.lookup] at h
    cases hk : (k == a) with
    | true => rw [hk] at h; simpa using h
    | false => rw [hk] at h; exact ih h

theorem lookup_append_none {β : Type} {l : List (Loc × β)} (l' : List (Loc × β))
    {k : Loc} (h : l.lookup k = none) : (l ++ l').lookup k = l'.lookup k := by
  induction l with
  | nil => rfl
  | cons x t ih =>
    obtain ⟨a, b⟩ := x
    rw [List.cons_append, List.lookup]
    rw [List.lookup] at h
    cases hk : (k == a) with
    | true => rw [hk] at h; simp at h
    | false => rw [hk] at h; exact ih h

theorem lookup_singleton {β : Type} (k a : Loc) (v : β) :
    List.lookup k [(a, v)] = if k == a then some v else none := by
  rw [List.lookup]
  cases hk : (k == a) <;> simp

theorem mem_of_lookup_eq_some {β : Type} {l : List (Loc × β)} {a : Loc} {b : β}
    (h : l.lookup a = some b) : (a, b) ∈ l := by
  induction l with
  | nil => simp [List.lookup] at h
  | cons x t ih =>
    obtain ⟨k, v⟩ := x
    rw [List.lookup] at h
    cases hk : (a == k) with
    | true =>
      rw [hk] at h
      simp only [Option.some.injEq] at h
      subst h
      have : a = k := by simpa using hk
      subst this
      exact List.mem_cons_self _ _
    | false =>
      rw [hk] at h
      exact List.mem_cons_of_mem _ (ih h)

theorem lookup_isSome_of_mem_keys {β : Type} {l : List (Loc × β)} {a : Loc}
    (h : a ∈ l.map Prod.fst) : (l.lookup a).isSome := by
  induction l with
  | nil => simp at h
  | cons x t ih =>
    obtain ⟨k, v⟩ := x
    rw [List.lookup]
    cases hk : (a == k) with
    | true => simp
    | false =>
      simp only [List.map_cons, List.mem_cons] at h
      rcases h with h | h
      · rw [h] at hk
        simp at hk
      · exact ih h

theorem alistSetdefault_of_some {β : Type} {l : List (Loc × β)} {k : Loc} {v : β}
    (d : β) (h : l.lookup k = some v) : alistSetdefault l k d = (v, l) := by
  simp [alistSetdefault, h]

theorem alistSetdefault_of_none {β : Type} {l : List (Loc × β)} {k : Loc}
    (d : β) (h : l.lookup k = none) : alistSetdefault l k d = (d, l ++ [(k, d)]) := by
  simp [alistSetdefault, h]

/-! ### Observable-equality lemmas for the `setdefault` mutations -/

theorem PureEq_refl (m : RoadMap) : PureEq m m :=
  ⟨fun _ => rfl, fun _ _ => rfl, rfl⟩

theorem PureEq_trans {a b c : RoadMap} (h₁ : PureEq a b) (h₂ : PureEq b c) :
    PureEq a c := by
  refine ⟨fun l => ?_, fun x y => ?_, ?_⟩
  · rw [h₂.1, h₁.1]
  · rw [h₂.2.1, h₁.2.1]
  · rw [h₂.2.2, h₁.2.2]

theorem pureEq_extend_conn {m : RoadMap} {s : Loc}
    (_h : m.connection_dict.lookup s = none) :
    PureEq m { m with connection_dict := m.connection_dict ++ [(s, [])] } := by
  refine ⟨fun _ => rfl, fun a b => ?_, rfl⟩
  unfold costOf
  simp only
  cases ha : m.connection_dict.lookup a with
  | some v => rw [lookup_append_some _ ha]
  | none =>
    rw [lookup_append_none _ ha, lookup_singleton]
    cases hk : (a == s) <;> simp

theorem pureEq_extend_road {m : RoadMap} {s : Loc}
    (_h : m.road_dict.lookup s = none) :
    PureEq m { m with road_dict := m.road_dict ++ [(s, [])] } := by
  refine ⟨fun l => ?_, fun _ _ => rfl, rfl⟩
  unfold succsOf
  simp only
  cases ha : m.road_dict.lookup l with
  | some v => rw [lookup_append_some _ ha]
  | none =>
    rw [lookup_append_none _ ha, lookup_singleton]
    cases hk : (l == s) <;> simp

theorem get_fst (m : RoadMap) (s e : Loc) : (m.get s e).1 = costOf m s e := by
  unfold RoadMap.get costOf
  cases h : m.connection_dict.lookup s with
  | some v => rw [alistSetdefault_of_some _ h]; simp
  | none => rw [alistSetdefault_of_none _ h]; simp

theorem get_snd_pureEq (m : RoadMap) (s e : Loc) : PureEq m (m.get s e).2 := by
  unfold RoadMap.get
  cases h : m.connection_dict.lookup s with
  | some v => rw [alistSetdefault_of_some _ h]; exact PureEq_refl m
  | none => rw [alistSetdefault_of_none _ h]; exact pureEq_extend_conn h

theorem get_dict_fst (m : RoadMap) (s : Loc) :
    (m.get_dict s).1 = (m.connection_dict.lookup s).getD [] := by
  unfold RoadMap.get_dict
  cases h : m.connection_dict.lookup s with
  | some v => rw [alistSetdefault_of_some _ h]; simp
  | none => rw [alistSetdefault_of_none _ h]; simp

theorem get_dict_snd_pureEq (m : RoadMap) (s : Loc) : PureEq m (m.get_dict s).2 := by
  unfold RoadMap.get_dict
  cases h : m.connection_dict.lookup s with
  | some v => rw [alistSetdefault_of_some _ h]; exact PureEq_refl m
  | none => rw [alistSetdefault_of_none _ h]; exact pureEq_extend_conn h

theorem get_result_fst (m : RoadMap) (s : Loc) (r : Road) :
    (m.get_result s r).1 = (succsOf m s).lookup r := by
  unfold RoadMap.get_result succsOf
  cases h : m.road_dict.lookup s with
  | some v => rw [alistSetdefault_of_some _ h]; simp
  | none => rw [alistSetdefault_of_none _ h]; simp

theorem get_result_snd_pureEq (m : RoadMap) (s : Loc) (r : Road) :
    PureEq m (m.get_result s r).2 := by
  unfold RoadMap.get_result
  cases h : m.road_dict.lookup s with
  | some v => rw [alistSetdefault_of_some _ h]; exact PureEq_refl m
  | none => rw [alistSetdefault_of_none _ h]; exact pureEq_extend_road h

theorem get_result_dict_fst (m : RoadMap) (s : Loc) :
    (m.get_result_dict s).1 = succsOf m s := by
  unfold RoadMap.get_result_dict succsOf
  cases h : m.road_dict.lookup s with
  | some v => rw [alistSetdefault_of_some _ h]; simp
  | none => rw [alistSetdefault_of_none _ h]; simp

theorem get_result_dict_snd_pureEq (m : RoadMap) (s : Loc) :
    PureEq m (m.get_result_dict s).2 := by
  unfold RoadMap.get_result_dict
  cases h : m.road_dict.lookup s with
  | some v => rw [alistSetdefault_of_some _ h]; exact PureEq_refl m
  | none => rw [alistSetdefault_of_none _ h]; exact pureEq_extend_road h

theorem succsOf_congr {m m' : RoadMap} (h : PureEq m m') :
    ∀ l, succsOf m' l = succsOf m l := h.1

theorem costOf_congr {m m' : RoadMap} (h : PureEq m m') :
    ∀ a b, costOf m' a b = costOf m a b := h.2.1

theorem WFC_to_look {m : RoadMap} (h : WFC m) : WFClook m := by
  intro loc r e hre
  unfold succsOf at hre
  cases hs : m.road_dict.lookup loc with
  | none => rw [hs] at hre; simp at hre
  | some sl =>
    rw [hs] at hre
    simp only [Option.getD_some] at hre
    exact h ⟨loc, sl⟩ (mem_of_lookup_eq_some hs) ⟨r, e⟩ (mem_of_lookup_eq_some hre)

theorem WFClook_congr {m m' : RoadMap} (hp : PureEq m m') (h : WFClook m) :
    WFClook m' := by
  intro loc r e hre
  rw [hp.1] at hre
  rw [hp.2.1]
  exact h loc r e hre

/-! ### Assignment 0 frontier lemmas -/

theorem pa0_addAll_fringe (f : PA0Frontier) (ns : List Node) :
    (f.addAll ns).fringe = f.fringe ++ ns ∧ (f.addAll ns).stack = f.stack := by
  induction ns generalizing f with
  | nil => simp [PA0Frontier.addAll]
  | cons n t ih =>
    have := ih (f.add n)
    simp only [PA0Frontier.addAll] at this ⊢
    simp only [List.foldl_cons]
    refine ⟨?_, ?_⟩
    · rw [this.1]
      simp [PA0Frontier.add]
    · rw [this.2]
      rfl

theorem pa0_pop_stack_concat (l : List Node) (n : Node) :
    PA0Frontier.pop ⟨true, l ++ [n]⟩ = some (n, ⟨true, l⟩) := by
  simp [PA0Frontier.pop, List.getLast?_concat, List.dropLast_concat]

theorem pa0_popAll_stack (l : List Node) :
    PA0Frontier.popAll ⟨true, l⟩ = l.reverse := by
  unfold PA0Frontier.popAll
  suffices h : ∀ (k : Nat) (l : List Node), l.length ≤ k →
      popAllAux k ⟨true, l⟩ = l.reverse by
    exact h _ l le_rfl
  intro k
  induction k with
  | zero =>
    intro l hl
    rw [Nat.le_zero] at hl
    rw [List.length_eq_zero] at hl
    subst hl
    simp [popAllAux]
  | succ k ih =>
    intro l hl
    rcases l.eq_nil_or_concat with rfl | ⟨xs, x, rfl⟩
    · simp [popAllAux, PA0Frontier.pop]
    · rw [List.concat_eq_append] at hl ⊢
      rw [popAllAux, pa0_pop_stack_concat]
      show x :: popAllAux k ⟨true, xs⟩ = (xs ++ [x]).reverse
      rw [ih xs (Nat.le_of_succ_le_succ (by simpa using hl))]
      simp

theorem pa0_popAll_queue (l : List Node) :
    PA0Frontier.popAll ⟨false, l⟩ = l := by
  unfold PA0Frontier.popAll
  suffices h : ∀ (k : Nat) (l : List Node), l.length ≤ k →
      popAllAux k ⟨false, l⟩ = l by
    exact h _ l le_rfl
  intro k
  induction k with
  | zero =>
    intro l hl
    rw [Nat.le_zero] at hl
    rw [List.length_eq_zero] at hl
    subst hl
    simp [popAllAux]
  | succ k ih =>
    intro l hl
    cases l with
    | nil => simp [popAllAux, PA0Frontier.pop]
    | cons x xs =>
      rw [popAllAux]
      have hp : PA0Frontier.pop ⟨false, x :: xs⟩ = some (x, ⟨false, xs⟩) := by
        simp [PA0Frontier.pop]
      rw [hp]
      show x :: popAllAux k ⟨false, xs⟩ = x :: xs
      rw [ih xs (Nat.le_of_succ_le_succ (by simpa using hl))]

/-- C2: the frontier used by DFS (constructed with the stack flag) is a
LIFO stack: popping after any sequence of adds returns the most recently
added node, and draining the frontier returns the adds in reverse
insertion order. -/
theorem claim_C2 :
    (∀ (l : List Node) (n : Node),
      PA0Frontier.pop (PA0Frontier.add ⟨true, l⟩ n) = some (n, ⟨true, l⟩)) ∧
    (∀ (l ns : List Node),
      PA0Frontier.popAll (PA0Frontier.addAll ⟨true, l⟩ ns) = (l ++ ns).reverse) := by
  constructor
  · intro l n
    exact pa0_pop_stack_concat l n
  · intro l ns
    have h := pa0_addAll_fringe ⟨true, l⟩ ns
    have : PA0Frontier.addAll ⟨true, l⟩ ns = ⟨true, l ++ ns⟩ := by
      cases hf : PA0Frontier.addAll ⟨true, l⟩ ns with
      | mk st fr =>
        rw [hf] at h
        simp only at h
        rw [h.1, h.2]
    rw [this, pa0_popAll_stack]

/-- C3: the frontier used by BFS (constructed without the stack flag) is a
FIFO queue: draining the frontier after any sequence of adds returns the
nodes in insertion order. -/
theorem claim_C3 :
    (∀ (l ns : List Node),
      (PA0Frontier.addAll ⟨false, l⟩ ns).fringe = l ++ ns) ∧
    (∀ (l ns : List Node),
      PA0Frontier.popAll (PA0Frontier.addAll ⟨false, l⟩ ns) = l ++ ns) := by
  constructor
  · intro l ns
    exact (pa0_addAll_fringe ⟨false, l⟩ ns).1
  · intro l ns
    have h := pa0_addAll_fringe ⟨false, l⟩ ns
    have : PA0Frontier.addAll ⟨false, l⟩ ns = ⟨false, l ++ ns⟩ := by
      cases hf : PA0Frontier.addAll ⟨false, l⟩ ns with
      | mk st fr =>
        rw [hf] at h
        simp only at h
        rw [h.1, h.2]
    rw [this, pa0_popAll_queue]

/-- C9: node equality and hashing are determined by location only: nodes
with the same location are equal with equal hashes regardless of parents,
roads, costs, heuristic values and depths; nodes with different locations
are unequal. -/
theorem claim_C9 : ∀ n1 n2 : Node,
    (n1.loc = n2.loc → Node.beq n1 n2 = true ∧ n1.hashv = n2.hashv) ∧
    (n1.loc ≠ n2.loc → Node.beq n1 n2 = false) := by
  intro n1 n2
  constructor
  · intro h
    constructor
    · simp [Node.beq, h]
    · simp [Node.hashv, h]
  · intro h
    simp [Node.beq, h]

/-- Witness for C9 at concrete nodes: `nodeA` and `nodeB` share a location
but differ in parent, road, path cost and heuristic value; `nodeC` has a
different location. -/
theorem claim_C9_witness :
    (Node.beq nodeA nodeB = true ∧ nodeA.hashv = nodeB.hashv) ∧
    Node.beq nodeA nodeC = false := by
  constructor
  · exact (claim_C9 nodeA nodeB).1 rfl
  · exact (claim_C9 nodeA nodeC).2 (by decide)

/-! ### Location-coordinate lookup (C5) -/

theorem location_coordinates_present_ok {m : RoadMap} {loc : Loc} {x y : ℚ}
    (h : m.loc_dict.lookup loc = some (x, y)) (hx : x ≠ 0) (hy : y ≠ 0) :
    RoadMap.location_coordinates m loc = (.ok (x, y), m) := by
  unfold RoadMap.location_coordinates
  rw [alistSetdefault_of_some _ h]
  simp [hx, hy]

theorem location_coordinates_present_bad {m : RoadMap} {loc : Loc} {x y : ℚ}
    (h : m.loc_dict.lookup loc = some (x, y)) (hxy : x = 0 ∨ y = 0) :
    RoadMap.location_coordinates m loc = (.error ("Unknown location - " ++ loc), m) := by
  unfold RoadMap.location_coordinates
  rw [alistSetdefault_of_some _ h]
  have : ¬ (x ≠ 0 ∧ y ≠ 0) := by
    rcases hxy with h0 | h0 <;> simp [h0]
  simp [this]

theorem location_coordinates_absent {m : RoadMap} {loc : Loc}
    (h : m.loc_dict.lookup loc = none) :
    RoadMap.location_coordinates m loc =
      (.error ("Unknown location - " ++ loc),
        { m with loc_dict := m.loc_dict ++ [(loc, (0, 0))] }) := by
  unfold RoadMap.location_coordinates
  rw [alistSetdefault_of_none _ h]
  simp

/-- C5 (amended): `location_coordinates(loc)` fails with the
`Unknown location` error iff `loc` is absent from `loc_dict` or its stored
coordinate has a zero component in *either* position (Python's
`if x and y`); for every location present with both components nonzero it
returns the stored pair. -/
theorem claim_C5 : ∀ (m : RoadMap) (loc : Loc),
    (∀ x y, m.loc_dict.lookup loc = some (x, y) → x ≠ 0 → y ≠ 0 →
      (RoadMap.location_coordinates m loc).1 = .ok (x, y)) ∧
    ((∃ e, (RoadMap.location_coordinates m loc).1 = .error e) ↔
      (m.loc_dict.lookup loc = none ∨
        ∃ x y, m.loc_dict.lookup loc = some (x, y) ∧ (x = 0 ∨ y = 0))) := by
  intro m loc
  constructor
  · intro x y h hx hy
    rw [location_coordinates_present_ok h hx hy]
  · constructor
    · intro ⟨e, he⟩
      cases h : m.loc_dict.lookup loc with
      | none => exact Or.inl rfl
      | some xy =>
        obtain ⟨x, y⟩ := xy
        refine Or.inr ⟨x, y, rfl, ?_⟩
        by_contra hc
        push_neg at hc
        rw [location_coordinates_present_ok h hc.1 hc.2] at he
        simp at he
    · intro h
      rcases h with h | ⟨x, y, h, hxy⟩
      · rw [location_coordinates_absent h]
        exact ⟨_, rfl⟩
      · rw [location_coordinates_present_bad h hxy]
        exact ⟨_, rfl⟩

/-- C5 counterexample: location `a` is present with coordinates `(0, 5)`
— not the degenerate `(0, 0)` that the claim says is the only failing
stored value — yet the lookup fails with the `Unknown location` error. -/
theorem claim_C5_counterexample :
    mapHalfZero.loc_dict.lookup "a" = some (0, 5) ∧
    ¬ ((0 : ℚ) = 0 ∧ (5 : ℚ) = 0) ∧
    (RoadMap.location_coordinates mapHalfZero "a").1 =
      Except.error "Unknown location - a" := by
  refine ⟨by decide, by decide, rfl⟩

/-- Witness for C5 at concrete maps: a present location with nonzero
coordinates returns its stored pair, and an absent location fails. -/
theorem claim_C5_witness :
    (RoadMap.location_coordinates mapW "a").1 = .ok (1, 2) ∧
    (∃ e, (RoadMap.location_coordinates mapEmpty "zzz").1 = .error e) := by
  constructor
  · exact (claim_C5 mapW "a").1 1 2 (by decide) (by decide) (by decide)
  · exact (claim_C5 mapEmpty "zzz").2.mpr (Or.inl (by decide))

/-! ### Map mutation under lookups (C4) -/

theorem Extends_refl (m : RoadMap) : Extends m m :=
  ⟨PureEq_refl m, fun _ _ h => h, fun _ _ h => h⟩

theorem Extends_trans {a b c : RoadMap} (h₁ : Extends a b) (h₂ : Extends b c) :
    Extends a c :=
  ⟨PureEq_trans h₁.1 h₂.1, fun k v h => h₂.2.1 k v (h₁.2.1 k v h),
    fun k v h => h₂.2.2 k v (h₁.2.2 k v h)⟩

theorem get_snd_extends (m : RoadMap) (s e : Loc) : Extends m (m.get s e).2 := by
  unfold RoadMap.get
  cases h : m.connection_dict.lookup s with
  | some v => rw [alistSetdefault_of_some _ h]; exact Extends_refl m
  | none =>
    rw [alistSetdefault_of_none _ h]
    exact ⟨pureEq_extend_conn h, fun k v hk => lookup_append_some _ hk, fun _ _ hk => hk⟩

theorem get_result_snd_extends (m : RoadMap) (s : Loc) (r : Road) :
    Extends m (m.get_result s r).2 := by
  unfold RoadMap.get_result
  cases h : m.road_dict.lookup s with
  | some v => rw [alistSetdefault_of_some _ h]; exact Extends_refl m
  | none =>
    rw [alistSetdefault_of_none _ h]
    exact ⟨pureEq_extend_road h, fun _ _ hk => hk, fun k v hk => lookup_append_some _ hk⟩

theorem pathCostGo_extends :
    ∀ (roads : List Road) (m : RoadMap) (total : ℚ) (loc : Loc),
      Extends m (pathCostGo m total loc roads).2 := by
  intro roads
  induction roads with
  | nil => intro m total loc; exact Extends_refl m
  | cons road rest ih =>
    intro m total loc
    simp only [pathCostGo]
    split
    · rename_i m₁ heq
      have h0 := get_result_snd_extends m loc road
      rw [heq] at h0
      exact h0
    · rename_i next_loc m₁ heq
      have e₁ : Extends m m₁ := by
        have h0 := get_result_snd_extends m loc road
        rw [heq] at h0
        exact h0
      split
      · rename_i m₂ heq₂
        have e₂ : Extends m₁ m₂ := by
          have h0 := get_snd_extends m₁ loc next_loc
          rw [heq₂] at h0
          exact h0
        exact Extends_trans e₁ e₂
      · rename_i c m₂ heq₂
        have e₂ : Extends m₁ m₂ := by
          have h0 := get_snd_extends m₁ loc next_loc
          rw [heq₂] at h0
          exact h0
        exact Extends_trans (Extends_trans e₁ e₂) (ih m₂ (total + c) next_loc)

/-- C4 (amended): the lookup operations never modify or remove existing
entries — on a present key the map is returned unchanged — but a query on
an absent key appends one default entry via `setdefault`
(`(start, {})` for `get`/`get_result`, `(loc, (0.0, 0.0))` for
`location_coordinates`), and `path_cost` preserves every existing entry
and every observable lookup result. -/
theorem claim_C4 :
    (∀ (m : RoadMap) (s e : Loc) (sl : List (Loc × ℚ)),
      m.connection_dict.lookup s = some sl → RoadMap.get m s e = (sl.lookup e, m)) ∧
    (∀ (m : RoadMap) (s e : Loc), m.connection_dict.lookup s = none →
      RoadMap.get m s e =
        (none, { m with connection_dict := m.connection_dict ++ [(s, [])] })) ∧
    (∀ (m : RoadMap) (s : Loc) (rd : Road) (rl : List (Road × Loc)),
      m.road_dict.lookup s = some rl → RoadMap.get_result m s rd = (rl.lookup rd, m)) ∧
    (∀ (m : RoadMap) (s : Loc) (rd : Road), m.road_dict.lookup s = none →
      RoadMap.get_result m s rd =
        (none, { m with road_dict := m.road_dict ++ [(s, [])] })) ∧
    (∀ (m : RoadMap) (loc : Loc) (xy : ℚ × ℚ), m.loc_dict.lookup loc = some xy →
      (RoadMap.location_coordinates m loc).2 = m) ∧
    (∀ (m : RoadMap) (loc : Loc), m.loc_dict.lookup loc = none →
      (RoadMap.location_coordinates m loc).2 =
        { m with loc_dict := m.loc_dict ++ [(loc, (0, 0))] }) ∧
    (∀ (m : RoadMap) (s : Loc) (roads : List Road),
      Extends m (RoadMap.path_cost m s roads).2) := by
  refine ⟨?_, ?_, ?_, ?_, ?_, ?_, ?_⟩
  · intro m s e sl h
    unfold RoadMap.get
    rw [alistSetdefault_of_some _ h]
  · intro m s e h
    unfold RoadMap.get
    rw [alistSetdefault_of_none _ h]
    rfl
  · intro m s rd rl h
    unfold RoadMap.get_result
    rw [alistSetdefault_of_some _ h]
  · intro m s rd h
    unfold RoadMap.get_result
    rw [alistSetdefault_of_none _ h]
    rfl
  · intro m loc xy h
    obtain ⟨x, y⟩ := xy
    by_cases hx : x ≠ 0 ∧ y ≠ 0
    · rw [location_coordinates_present_ok h hx.1 hx.2]
    · push_neg at hx
      rcases eq_or_ne x 0 with h0 | h0
      · rw [location_coordinates_present_bad h (Or.inl h0)]
      · rw [location_coordinates_present_bad h (Or.inr (hx h0))]
  · intro m loc h
    rw [location_coordinates_absent h]
  · intro m s roads
    exact pathCostGo_extends roads m 0 s

/-- C4 counterexample: looking up an absent start location with `get`
mutates the map — `connection_dict` gains an entry — so the map is not
the same after the lookup. -/
theorem claim_C4_counterexample :
    (RoadMap.get mapEmpty "a" "b").2 ≠ mapEmpty := by decide

/-- Witness for C4 at concrete maps: a present key leaves the map
unchanged, an absent key appends exactly the default entry. -/
theorem claim_C4_witness :
    RoadMap.get mapW "a" "b" = (some 3, mapW) ∧
    RoadMap.get mapEmpty "a" "b" =
      (none, { mapEmpty with connection_dict := [("a", [])] }) := by
  constructor
  · have h := claim_C4.1 mapW "a" "b" [("b", 3)] (by decide)
    rw [h]
    rfl
  · have h := claim_C4.2.1 mapEmpty "a" "b" (by decide)
    rw [h]
    rfl

/-! ### The dead replacement branch of ucost.py and astar.py (C1) -/

/-- C1: in `uniform_cost_search` and `a_star_search` with repeat checking,
the replacement condition compares one frontier key with itself
(`frontier[child] > frontier.__getitem__(child)`), so it is always false
and the per-child update leaves the frontier and reached set unchanged for
any child whose location was already reached: duplicate-location frontier
entries are never replaced.  `pqStepUCS` is the per-child update of both
search functions (their loops are textually identical). -/
theorem claim_C1 : ∀ (f : Frontier) (reached : List Node) (child : Node),
    ((f.contains child && decide (f.getItem child > f.getItem child)) = false) ∧
    (reached.any (fun n => Node.beq n child) = true →
      pqStepUCS true (f, reached) child = (f, reached)) := by
  intro f reached child
  have hdead : (f.contains child && decide (f.getItem child > f.getItem child)) = false := by
    have : decide (f.getItem child > f.getItem child) = false := by
      simp [lt_irrefl]
    rw [this, Bool.and_false]
  refine ⟨hdead, fun h => ?_⟩
  simp only [pqStepUCS, if_true, h]
  rw [hdead]
  simp

/-- Witness for C1: a frontier holding a node at location `spot` and a
reached list containing it; processing another node at the same location
changes nothing. -/
theorem claim_C1_witness :
    pqStepUCS true (Frontier.init nodeA "g", [nodeA]) nodeB =
      (Frontier.init nodeA "g", [nodeA]) := by
  exact (claim_C1 (Frontier.init nodeA "g") [nodeA] nodeB).2 (by decide)

/-! ### path_cost (C6) -/

theorem pathCostGo_walk {m : RoadMap} (hw : WFClook m) :
    ∀ (roads : List Road) (m' : RoadMap) (total : ℚ) (loc : Loc), PureEq m m' →
      (walkLocs m loc roads = none → (pathCostGo m' total loc roads).1 = .ok 0) ∧
      (∀ pairs, walkLocs m loc roads = some pairs →
        (pathCostGo m' total loc roads).1 =
          .ok (total + (pairs.map (fun pr => (costOf m pr.1 pr.2).getD 0)).sum)) := by
  intro roads
  induction roads with
  | nil =>
    intro m' total loc hpe
    constructor
    · intro h
      simp [walkLocs] at h
    · intro pairs h
      simp only [walkLocs, Option.some.injEq] at h
      subst h
      simp [pathCostGo]
  | cons road rest ih =>
    intro m' total loc hpe
    simp only [pathCostGo]
    split
    · rename_i m₁ heq
      have hfst : (succsOf m loc).lookup road = none := by
        have h0 := get_result_fst m' loc road
        rw [heq] at h0
        simp only at h0
        rw [← hpe.1]
        exact h0.symm
      constructor
      · intro _
        rfl
      · intro pairs h
        simp only [walkLocs, hfst] at h
        simp at h
    · rename_i next_loc m₁ heq
      have hfst : (succsOf m loc).lookup road = some next_loc := by
        have h0 := get_result_fst m' loc road
        rw [heq] at h0
        simp only at h0
        rw [← hpe.1]
        exact h0.symm
      have hpe₁ : PureEq m m₁ := by
        have h0 := get_result_snd_pureEq m' loc road
        rw [heq] at h0
        exact PureEq_trans hpe h0
      split
      · rename_i m₂ heq₂
        have hc : costOf m loc next_loc = none := by
          have h0 := get_fst m₁ loc next_loc
          rw [heq₂] at h0
          simp only at h0
          rw [← hpe₁.2.1]
          exact h0.symm
        have hsome := hw loc road next_loc hfst
        rw [hc] at hsome
        simp at hsome
      · rename_i c m₂ heq₂
        have hcv : costOf m loc next_loc = some c := by
          have h0 := get_fst m₁ loc next_loc
          rw [heq₂] at h0
          simp only at h0
          rw [← hpe₁.2.1]
          exact h0.symm
        have hpe₂ : PureEq m m₂ := by
          have h0 := get_snd_pureEq m₁ loc next_loc
          rw [heq₂] at h0
          exact PureEq_trans hpe₁ h0
        have IH := ih m₂ (total + c) next_loc hpe₂
        constructor
        · intro h
          simp only [walkLocs, hfst] at h
          rcases hwr : walkLocs m next_loc rest with _ | ps
          · exact IH.1 hwr
          · rw [hwr] at h
            simp at h
        · intro pairs h
          simp only [walkLocs, hfst] at h
          rcases hwr : walkLocs m next_loc rest with _ | ps
          · rw [hwr] at h
            simp at h
          · rw [hwr] at h
            simp only [Option.map_some', Option.some.injEq] at h
            subst h
            rw [IH.2 ps hwr]
            simp only [List.map_cons, List.sum_cons, hcv, Option.getD_some]
            rw [add_assoc]

/-- C6: `path_cost` returns `0.0` for the empty road list and whenever any
step of the walk fails to resolve (including an invalid start with a
non-empty list and a valid prefix followed by one invalid step), and
otherwise returns the sum of the edge costs along the resolved walk — no
partial credit.  The well-formedness hypothesis `WFC` (every named road
has a cost entry, as guaranteed by `add_road`) rules out Python's
`TypeError` on adding `None` to a float. -/
theorem claim_C6 :
    (∀ (m : RoadMap) (start : Loc), (RoadMap.path_cost m start []).1 = .ok 0) ∧
    (∀ (m : RoadMap) (start : Loc) (roads : List Road), WFC m →
      walkLocs m start roads = none → (RoadMap.path_cost m start roads).1 = .ok 0) ∧
    (∀ (m : RoadMap) (start : Loc) (roads : List Road) (pairs : List (Loc × Loc)), WFC m →
      walkLocs m start roads = some pairs →
      (RoadMap.path_cost m start roads).1 =
        .ok ((pairs.map (fun pr => (costOf m pr.1 pr.2).getD 0)).sum)) := by
  refine ⟨?_, ?_, ?_⟩
  · intro m start
    rfl
  · intro m start roads hwf hwalk
    exact (pathCostGo_walk (WFC_to_look hwf) roads m 0 start (PureEq_refl m)).1 hwalk
  · intro m start roads pairs hwf hwalk
    have h := (pathCostGo_walk (WFC_to_look hwf) roads m 0 start (PureEq_refl m)).2 pairs hwalk
    show (pathCostGo m 0 start roads).1 = _
    rw [h, zero_add]

/-- Witness for C6 on `mapW`: a valid two-road walk costs the sum `3 + 4`,
an invalid start returns `0.0`, a valid prefix followed by an invalid road
returns `0.0`, and the empty list returns `0.0`. -/
theorem claim_C6_witness :
    (RoadMap.path_cost mapW "a" ["r", "s"]).1 = .ok 7 ∧
    (RoadMap.path_cost mapW "z" ["r"]).1 = .ok 0 ∧
    (RoadMap.path_cost mapW "a" ["r", "bogus"]).1 = .ok 0 ∧
    (RoadMap.path_cost mapW "a" []).1 = .ok 0 := by
  refine ⟨?_, ?_, ?_, ?_⟩
  · have h := claim_C6.2.2 mapW "a" ["r", "s"] [("a", "b"), ("b", "a")]
      (by decide) (by decide)
    rw [h]
    congr 1
    show (3 : ℚ) + (4 + 0) = 7
    norm_num
  · exact claim_C6.2.1 mapW "z" ["r"] (by decide) (by decide)
  · exact claim_C6.2.1 mapW "a" ["r", "bogus"] (by decide) (by decide)
  · exact claim_C6.1 mapW "a"

/-! ### Frontier pop order (C7) -/

theorem entryLT_irrefl (a : ℚ × Node) : ¬ entryLT a a := by
  unfold entryLT
  simp

theorem entryLT_trans {a b c : ℚ × Node} (h1 : entryLT a b) (h2 : entryLT b c) :
    entryLT a c := by
  unfold entryLT at *
  rcases h1 with h1 | ⟨e1, l1⟩
  · rcases h2 with h2 | ⟨e2, l2⟩
    · exact Or.inl (h1.trans h2)
    · exact Or.inl (e2 ▸ h1)
  · rcases h2 with h2 | ⟨e2, l2⟩
    · exact Or.inl (e1 ▸ h2)
    · exact Or.inr ⟨e1.trans e2, l1.trans l2⟩

theorem entryLT_cross {x e m : ℚ × Node} (h1 : ¬ entryLT x e) (h2 : entryLT x m) :
    entryLT e m := by
  unfold entryLT at *
  push_neg at h1
  have hle : e.1 ≤ x.1 := h1.1
  rcases h2 with h2 | ⟨e2, l2⟩
  · exact Or.inl (lt_of_le_of_lt hle h2)
  · rcases lt_or_eq_of_le hle with hlt | heq
    · exact Or.inl (e2 ▸ hlt)
    · have hloc : e.2.loc ≤ x.2.loc := h1.2 heq.symm
      exact Or.inr ⟨heq ▸ e2, lt_of_le_of_lt hloc l2⟩

theorem selectMin_length : ∀ (e : ℚ × Node) (l : List (ℚ × Node)),
    (selectMin e l).2.length = l.length := by
  intro e l
  induction l generalizing e with
  | nil => rfl
  | cons x xs ih =>
    simp only [selectMin]
    by_cases h : entryLT x e
    · simp only [if_pos h, List.length_cons]
      rw [ih x]
    · simp only [if_neg h, List.length_cons]
      rw [ih e]

theorem selectMin_perm : ∀ (e : ℚ × Node) (l : List (ℚ × Node)),
    ((selectMin e l).1 :: (selectMin e l).2).Perm (e :: l) := by
  intro e l
  induction l generalizing e with
  | nil => exact List.Perm.refl _
  | cons x xs ih =>
    simp only [selectMin]
    by_cases h : entryLT x e
    · simp only [if_pos h]
      exact (List.Perm.swap _ _ _).trans ((ih x).cons e)
    · simp only [if_neg h]
      exact ((List.Perm.swap _ _ _).trans ((ih e).cons x)).trans (List.Perm.swap _ _ _)

theorem selectMin_min : ∀ (e : ℚ × Node) (l : List (ℚ × Node)) (y : ℚ × Node),
    y ∈ e :: l → ¬ entryLT y (selectMin e l).1 := by
  intro e l
  induction l generalizing e with
  | nil =>
    intro y hy
    have : y = e := by simpa using hy
    subst this
    exact entryLT_irrefl y
  | cons x xs ih =>
    intro y hy
    simp only [selectMin]
    by_cases h : entryLT x e
    · simp only [if_pos h]
      have hmem : y = e ∨ y ∈ x :: xs := by
        rcases List.mem_cons.mp hy with h' | h'
        · exact Or.inl h'
        · exact Or.inr h'
      rcases hmem with rfl | h'
      · intro hem
        exact (ih x x (List.mem_cons_self _ _)) (entryLT_trans h hem)
      · exact ih x y h'
    · simp only [if_neg h]
      have hmem : y = x ∨ y ∈ e :: xs := by
        rcases List.mem_cons.mp hy with h' | h'
        · exact Or.inr (h' ▸ List.mem_cons_self _ _)
        · rcases List.mem_cons.mp h' with h'' | h''
          · exact Or.inl h''
          · exact Or.inr (List.mem_cons_of_mem _ h'')
      rcases hmem with rfl | h'
      · intro hxm
        exact (ih e e (List.mem_cons_self _ _)) (entryLT_cross h hxm)
      · exact ih e y h'

theorem popSeqAux_perm : ∀ (n : Nat) (l : List (ℚ × Node)), l.length ≤ n →
    (popSeqAux n l).Perm l := by
  intro n
  induction n with
  | zero =>
    intro l hl
    rw [Nat.le_zero] at hl
    rw [List.length_eq_zero] at hl
    subst hl
    exact List.Perm.refl _
  | succ n ih =>
    intro l hl
    cases l with
    | nil => exact List.Perm.refl _
    | cons e es =>
      simp only [popSeqAux]
      have hlen : (selectMin e es).2.length ≤ n := by
        rw [selectMin_length]
        exact Nat.le_of_succ_le_succ (by simpa using hl)
      have hperm := ih (selectMin e es).2 hlen
      exact (hperm.cons (selectMin e es).1).trans (selectMin_perm e es)

theorem popSeqAux_pairwise : ∀ (n : Nat) (l : List (ℚ × Node)), l.length ≤ n →
    List.Pairwise (fun a b => ¬ entryLT b a) (popSeqAux n l) := by
  intro n
  induction n with
  | zero =>
    intro l hl
    rw [Nat.le_zero] at hl
    rw [List.length_eq_zero] at hl
    subst hl
    simp [popSeqAux]
  | succ n ih =>
    intro l hl
    cases l with
    | nil => simp [popSeqAux]
    | cons e es =>
      simp only [popSeqAux]
      have hlen : (selectMin e es).2.length ≤ n := by
        rw [selectMin_length]
        exact Nat.le_of_succ_le_succ (by simpa using hl)
      refine List.Pairwise.cons ?_ (ih _ hlen)
      intro y hy
      have hy' : y ∈ (selectMin e es).2 := (popSeqAux_perm n _ hlen).mem_iff.mp hy
      have hy3 : y ∈ e :: es :=
        (selectMin_perm e es).subset (List.mem_cons_of_mem _ hy')
      exact selectMin_min e es y hy3

theorem frontier_addAll_fringe (f : Frontier) (ns : List Node) :
    (f.addAll ns).fringe = f.fringe ++ ns.map (fun n => (n.value f.sort_by, n)) ∧
    (f.addAll ns).sort_by = f.sort_by := by
  induction ns generalizing f with
  | nil => simp [Frontier.addAll]
  | cons n t ih =>
    have h := ih (f.add n)
    simp only [Frontier.addAll] at h ⊢
    simp only [List.foldl_cons]
    refine ⟨?_, ?_⟩
    · rw [h.1]
      simp [Frontier.add]
    · rw [h.2]
      rfl

theorem popSeq_perm (f : Frontier) : f.popSeq.Perm f.fringe :=
  popSeqAux_perm f.fringe.length f.fringe le_rfl

/-- C7: for every frontier obtained by seeding a root and pushing any
sequence of nodes, the successive pops yield entries whose keys are
non-decreasing in the frontier's metric, with ties on the key broken by
ascending node location (pop is a function of the frontier state, so the
pop order is deterministic); every popped key is the node's `value` under
the frontier's metric. -/
theorem claim_C7 : ∀ (root : Node) (sb : String) (ns : List Node),
    List.Pairwise (fun a b : ℚ × Node => a.1 ≤ b.1 ∧ (a.1 = b.1 → a.2.loc ≤ b.2.loc))
      ((Frontier.init root sb).addAll ns).popSeq ∧
    ∀ e ∈ ((Frontier.init root sb).addAll ns).popSeq, e.1 = e.2.value sb := by
  intro root sb ns
  constructor
  · have hp := popSeqAux_pairwise (((Frontier.init root sb).addAll ns).fringe.length)
      (((Frontier.init root sb).addAll ns).fringe) le_rfl
    refine hp.imp ?_
    intro a b hab
    unfold entryLT at hab
    push_neg at hab
    exact ⟨hab.1, fun he => hab.2 he.symm⟩
  · intro e he
    have hmem : e ∈ ((Frontier.init root sb).addAll ns).fringe :=
      (popSeq_perm _).mem_iff.mp he
    have hfr := frontier_addAll_fringe (Frontier.init root sb) ns
    rw [hfr.1] at hmem
    simp only [Frontier.init] at hmem
    rcases List.mem_append.mp hmem with h | h
    · have : e = (root.value sb, root) := by simpa using h
      rw [this]
    · rcases List.mem_map.mp h with ⟨n, _, rfl⟩
      rfl

/-! ### Heuristic construction (C10) -/

theorem scanInner_cons_err0 {m : RoadMap} {loc : Loc} {s : List (Loc × ℚ)}
    {ce : Loc × ℚ} {rest : List (Loc × ℚ)} {acc : List ScanEdge} {e : String}
    (h0 : coordCheck m loc = .error e) :
    scanInner m loc s (ce :: rest) acc = .error e := by
  simp [scanInner, h0]

theorem scanInner_cons_err1 {m : RoadMap} {loc : Loc} {s : List (Loc × ℚ)}
    {ce : Loc × ℚ} {rest : List (Loc × ℚ)} {acc : List ScanEdge}
    {xy0 : ℚ × ℚ} {e : String}
    (h0 : coordCheck m loc = .ok xy0) (h1 : coordCheck m ce.1 = .error e) :
    scanInner m loc s (ce :: rest) acc = .error e := by
  simp [scanInner, h0, h1]

theorem scanInner_cons_errT {m : RoadMap} {loc : Loc} {s : List (Loc × ℚ)}
    {ce : Loc × ℚ} {rest : List (Loc × ℚ)} {acc : List ScanEdge}
    {xy0 xy1 : ℚ × ℚ}
    (h0 : coordCheck m loc = .ok xy0) (h1 : coordCheck m ce.1 = .ok xy1)
    (hc : s.lookup ce.1 = none) :
    scanInner m loc s (ce :: rest) acc =
      .error "TypeError: unsupported operand type(s)" := by
  simp [scanInner, h0, h1, hc]

theorem scanInner_cons_div0 {m : RoadMap} {loc : Loc} {s : List (Loc × ℚ)}
    {ce : Loc × ℚ} {rest : List (Loc × ℚ)} {acc : List ScanEdge}
    {xy0 xy1 : ℚ × ℚ} {c : ℚ}
    (h0 : coordCheck m loc = .ok xy0) (h1 : coordCheck m ce.1 = .ok xy1)
    (hc : s.lookup ce.1 = some c) (hz : c = 0) :
    scanInner m loc s (ce :: rest) acc =
      .error "ZeroDivisionError: float division by zero" := by
  simp [scanInner, h0, h1, hc, hz]

theorem scanInner_cons_step {m : RoadMap} {loc : Loc} {s : List (Loc × ℚ)}
    {ce : Loc × ℚ} {rest : List (Loc × ℚ)} {acc : List ScanEdge}
    {xy0 xy1 : ℚ × ℚ} {c : ℚ}
    (h0 : coordCheck m loc = .ok xy0) (h1 : coordCheck m ce.1 = .ok xy1)
    (hc : s.lookup ce.1 = some c) (hz : c ≠ 0) :
    scanInner m loc s (ce :: rest) acc =
      scanInner m loc s rest (acc ++ [⟨xy0.1, xy0.2, xy1.1, xy1.2, c⟩]) := by
  simp [scanInner, h0, h1, hc, hz]

theorem scanEdges_cons_key {m : RoadMap} {le : Loc × (ℚ × ℚ)}
    {rest : List (Loc × (ℚ × ℚ))} {acc : List ScanEdge}
    (hc : m.connection_dict.lookup le.1 = none) :
    scanEdges m (le :: rest) acc = .error ("KeyError: " ++ le.1) := by
  simp [scanEdges, hc]

theorem scanEdges_cons_inner_err {m : RoadMap} {le : Loc × (ℚ × ℚ)}
    {rest : List (Loc × (ℚ × ℚ))} {acc : List ScanEdge}
    {s : List (Loc × ℚ)} {e : String}
    (hc : m.connection_dict.lookup le.1 = some s)
    (hsi : scanInner m le.1 s s acc = .error e) :
    scanEdges m (le :: rest) acc = .error e := by
  simp [scanEdges, hc, hsi]

theorem scanEdges_cons_step {m : RoadMap} {le : Loc × (ℚ × ℚ)}
    {rest : List (Loc × (ℚ × ℚ))} {acc acc' : List ScanEdge}
    {s : List (Loc × ℚ)}
    (hc : m.connection_dict.lookup le.1 = some s)
    (hsi : scanInner m le.1 s s acc = .ok acc') :
    scanEdges m (le :: rest) acc = scanEdges m rest acc' := by
  simp [scanEdges, hc, hsi]

theorem heuristicInit_scan_err {p : RouteProblem} {e : String}
    (h : scanEdges p.map p.map.loc_dict [] = .error e) :
    heuristicInit p = .error e := by
  simp [heuristicInit, h]

theorem heuristicInit_scan_ok {p : RouteProblem} {edges : List ScanEdge}
    {g : ℝ} {gs : List ℝ}
    (h : scanEdges p.map p.map.loc_dict [] = .ok edges)
    (hd : pyDedup (edges.map ratioOf) = g :: gs) :
    heuristicInit p = .ok (gs.foldl max g) := by
  simp [heuristicInit, h, hd]

theorem scanInner_zero_err (m : RoadMap) (loc : Loc) (s : List (Loc × ℚ)) :
    ∀ (l : List (Loc × ℚ)) (acc : List ScanEdge),
      (∃ ce ∈ l, s.lookup ce.1 = some 0) →
      ∃ e, scanInner m loc s l acc = .error e := by
  intro l
  induction l with
  | nil =>
    intro acc h
    obtain ⟨ce, hce, _⟩ := h
    simp at hce
  | cons ce' rest ih =>
    intro acc h
    obtain ⟨ce, hce, hz⟩ := h
    cases hc0 : coordCheck m loc with
    | error e => exact ⟨e, scanInner_cons_err0 hc0⟩
    | ok xy0 =>
      cases hc1 : coordCheck m ce'.1 with
      | error e => exact ⟨e, scanInner_cons_err1 hc0 hc1⟩
      | ok xy1 =>
        cases hlk : s.lookup ce'.1 with
        | none => exact ⟨_, scanInner_cons_errT hc0 hc1 hlk⟩
        | some c =>
          by_cases hcz : c = 0
          · exact ⟨_, scanInner_cons_div0 hc0 hc1 hlk hcz⟩
          · rw [scanInner_cons_step hc0 hc1 hlk hcz]
            rcases List.mem_cons.mp hce with rfl | hmem
            · rw [hlk] at hz
              injection hz with hz0
              exact absurd hz0 hcz
            · exact ih _ ⟨ce, hmem, hz⟩

theorem scanEdges_err (m : RoadMap) :
    ∀ (l : List (Loc × (ℚ × ℚ))) (acc : List ScanEdge),
      (∃ le ∈ l, m.connection_dict.lookup le.1 = none) →
      ∃ e, scanEdges m l acc = .error e := by
  intro l
  induction l with
  | nil =>
    intro acc h
    obtain ⟨le, hle, _⟩ := h
    simp at hle
  | cons le' rest ih =>
    intro acc h
    obtain ⟨le, hle, hn⟩ := h
    cases hc : m.connection_dict.lookup le'.1 with
    | none => exact ⟨_, scanEdges_cons_key hc⟩
    | some s =>
      cases hsi : scanInner m le'.1 s s acc with
      | error e => exact ⟨e, scanEdges_cons_inner_err hc hsi⟩
      | ok acc' =>
        rw [scanEdges_cons_step hc hsi]
        rcases List.mem_cons.mp hle with rfl | hmem
        · rw [hc] at hn
          cases hn
        · exact ih acc' ⟨le, hmem, hn⟩

theorem scanEdges_zero_err (m : RoadMap) :
    ∀ (l : List (Loc × (ℚ × ℚ))) (acc : List ScanEdge),
      (∃ le ∈ l, ∃ s, m.connection_dict.lookup le.1 = some s ∧
        ∃ ce ∈ s, s.lookup ce.1 = some 0) →
      ∃ e, scanEdges m l acc = .error e := by
  intro l
  induction l with
  | nil =>
    intro acc h
    obtain ⟨le, hle, _⟩ := h
    simp at hle
  | cons le' rest ih =>
    intro acc h
    obtain ⟨le, hle, s0, hs0, hbad⟩ := h
    cases hc : m.connection_dict.lookup le'.1 with
    | none => exact ⟨_, scanEdges_cons_key hc⟩
    | some s =>
      cases hsi : scanInner m le'.1 s s acc with
      | error e => exact ⟨e, scanEdges_cons_inner_err hc hsi⟩
      | ok acc' =>
        rw [scanEdges_cons_step hc hsi]
        rcases List.mem_cons.mp hle with rfl | hmem
        · rw [hc] at hs0
          injection hs0 with hss
          subst hss
          obtain ⟨e, he⟩ := scanInner_zero_err m le.1 s s acc hbad
          rw [he] at hsi
          cases hsi
        · exact ih acc' ⟨le, hmem, s0, hs0, hbad⟩

theorem scanInner_ok (m : RoadMap) (loc : Loc) (s : List (Loc × ℚ)) :
    ∀ (l : List (Loc × ℚ)) (acc : List ScanEdge),
      (∀ ce ∈ l, coordOK m loc ∧ coordOK m ce.1 ∧ costOK s ce.1) →
      ∃ tail, scanInner m loc s l acc = .ok (acc ++ tail) ∧ tail.length = l.length := by
  intro l
  induction l with
  | nil =>
    intro acc _
    exact ⟨[], by simp [scanInner], rfl⟩
  | cons ce rest ih =>
    intro acc h
    obtain ⟨⟨xy0, hcc0⟩, ⟨xy1, hcc1⟩, ⟨c, hc, hcz⟩⟩ := h ce (List.mem_cons_self _ _)
    rw [scanInner_cons_step hcc0 hcc1 hc hcz]
    obtain ⟨tail, hok, hlen⟩ := ih (acc ++ [⟨xy0.1, xy0.2, xy1.1, xy1.2, c⟩])
      (fun ce' hce' => h ce' (List.mem_cons_of_mem _ hce'))
    refine ⟨⟨xy0.1, xy0.2, xy1.1, xy1.2, c⟩ :: tail, ?_, ?_⟩
    · rw [hok]
      simp
    · simp [hlen]

theorem scanEdges_ok (m : RoadMap) :
    ∀ (l : List (Loc × (ℚ × ℚ))) (acc : List ScanEdge),
      (∀ le ∈ l, ∃ s, m.connection_dict.lookup le.1 = some s ∧ CleanConn m le.1 s) →
      ∃ tail, scanEdges m l acc = .ok (acc ++ tail) ∧
        tail.length =
          (l.map (fun le => ((m.connection_dict.lookup le.1).getD []).length)).sum := by
  intro l
  induction l with
  | nil =>
    intro acc _
    exact ⟨[], by simp [scanEdges], by simp⟩
  | cons le rest ih =>
    intro acc h
    obtain ⟨s, hs, hconn⟩ := h le (List.mem_cons_self _ _)
    obtain ⟨tail₁, hok₁, hlen₁⟩ := scanInner_ok m le.1 s s acc hconn
    rw [scanEdges_cons_step hs hok₁]
    obtain ⟨tail₂, hok₂, hlen₂⟩ := ih (acc ++ tail₁)
      (fun le' hle' => h le' (List.mem_cons_of_mem _ hle'))
    refine ⟨tail₁ ++ tail₂, ?_, ?_⟩
    · rw [hok₂]
      simp
    · simp only [List.map_cons, List.sum_cons, List.length_append, hlen₂, hs, hlen₁]
      simp

theorem mem_pyStep (acc : List ℝ) (g x : ℝ) : x ∈ pyStep acc g ↔ x ∈ acc ∨ x = g := by
  unfold pyStep
  by_cases hg : g ∈ acc
  · rw [if_pos hg]
    constructor
    · exact Or.inl
    · rintro (h | rfl)
      · exact h
      · exact hg
  · rw [if_neg hg]
    simp

theorem mem_pyDedupAux : ∀ (l acc : List ℝ) (x : ℝ),
    x ∈ l.foldl pyStep acc ↔ (x ∈ acc ∨ x ∈ l) := by
  intro l
  induction l with
  | nil => simp
  | cons g t ih =>
    intro acc x
    rw [List.foldl_cons, ih]
    rw [mem_pyStep]
    simp only [List.mem_cons]
    tauto

theorem mem_pyDedup (l : List ℝ) (x : ℝ) : x ∈ pyDedup l ↔ x ∈ l := by
  unfold pyDedup
  rw [mem_pyDedupAux]
  simp

theorem pyDedup_ne_nil {l : List ℝ} (h : l ≠ []) : pyDedup l ≠ [] := by
  cases l with
  | nil => exact absurd rfl h
  | cons x xs =>
    intro hd
    have hx : x ∈ pyDedup (x :: xs) := (mem_pyDedup _ _).mpr (List.mem_cons_self _ _)
    rw [hd] at hx
    simp at hx

theorem le_foldl_max : ∀ (xs : List ℝ) (g : ℝ), g ≤ xs.foldl max g := by
  intro xs
  induction xs with
  | nil => intro g; exact le_refl g
  | cons y ys ih => intro g; exact le_trans (le_max_left g y) (ih (max g y))

theorem foldl_max_le_of_mem : ∀ (xs : List ℝ) (g x : ℝ),
    x ∈ g :: xs → x ≤ xs.foldl max g := by
  intro xs
  induction xs with
  | nil =>
    intro g x hx
    have : x = g := by simpa using hx
    subst this
    exact le_refl x
  | cons y ys ih =>
    intro g x hx
    rw [List.foldl_cons]
    rcases List.mem_cons.mp hx with rfl | hx'
    · exact le_trans (le_max_left x y) (le_foldl_max ys (max x y))
    · rcases List.mem_cons.mp hx' with rfl | hx''
      · exact le_trans (le_max_right g x) (le_foldl_max ys (max g x))
      · exact ih (max g y) x (List.mem_cons_of_mem _ hx'')

theorem foldl_max_mem : ∀ (xs : List ℝ) (g : ℝ), xs.foldl max g ∈ g :: xs := by
  intro xs
  induction xs with
  | nil => intro g; simp
  | cons y ys ih =>
    intro g
    rw [List.foldl_cons]
    rcases List.mem_cons.mp (ih (max g y)) with he | hm
    · rw [he]
      rcases max_choice g y with h1 | h1 <;> rw [h1]
      · exact List.mem_cons_self _ _
      · exact List.mem_cons_of_mem _ (List.mem_cons_self _ _)
    · exact List.mem_cons_of_mem _ (List.mem_cons_of_mem _ hm)

/-- C10 (amended): `HeuristicFunction.__init__` fails whenever some listed
location lacks a `connection_dict` entry (`KeyError`) or some scanned edge
has first-binding cost zero (`ZeroDivisionError`) — the two conditions the
claim names — but it also fails on absent or zero-component coordinates of
any scanned endpoint and on an empty scan (`max([])` raises `ValueError`).
When the scan is clean it succeeds, and `efficientGas` is then the maximum
distance-over-cost ratio of the scanned edges. -/
theorem claim_C10 :
    (∀ p : RouteProblem,
      (∃ le ∈ p.map.loc_dict, p.map.connection_dict.lookup le.1 = none) →
      ∃ e, heuristicInit p = .error e) ∧
    (∀ p : RouteProblem,
      (∃ le ∈ p.map.loc_dict, ∃ s, p.map.connection_dict.lookup le.1 = some s ∧
        ∃ ce ∈ s, s.lookup ce.1 = some 0) →
      ∃ e, heuristicInit p = .error e) ∧
    (∀ (p : RouteProblem) (edges : List ScanEdge),
      scanEdges p.map p.map.loc_dict [] = .ok edges → edges ≠ [] →
      ∃ g, heuristicInit p = .ok g ∧ g ∈ edges.map ratioOf ∧
        ∀ r ∈ edges.map ratioOf, r ≤ g) ∧
    (∀ p : RouteProblem, CleanMap p.map →
      ∃ edges, scanEdges p.map p.map.loc_dict [] = .ok edges ∧
        edges.length = (p.map.loc_dict.map
          (fun le => ((p.map.connection_dict.lookup le.1).getD []).length)).sum) := by
  refine ⟨?_, ?_, ?_, ?_⟩
  · intro p h
    obtain ⟨e, he⟩ := scanEdges_err p.map p.map.loc_dict [] h
    exact ⟨e, heuristicInit_scan_err he⟩
  · intro p h
    obtain ⟨e, he⟩ := scanEdges_zero_err p.map p.map.loc_dict [] h
    exact ⟨e, heuristicInit_scan_err he⟩
  · intro p edges hscan hne
    cases hd : pyDedup (edges.map ratioOf) with
    | nil =>
      have hmap : edges.map ratioOf ≠ [] := by
        intro h0
        exact hne (List.map_eq_nil_iff.mp h0)
      exact absurd hd (pyDedup_ne_nil hmap)
    | cons g gs =>
      refine ⟨gs.foldl max g, heuristicInit_scan_ok hscan hd, ?_, ?_⟩
      · have hmem := foldl_max_mem gs g
        rw [← hd] at hmem
        exact (mem_pyDedup _ _).mp hmem
      · intro r hr
        have hr' : r ∈ pyDedup (edges.map ratioOf) := (mem_pyDedup _ _).mpr hr
        rw [hd] at hr'
        exact foldl_max_le_of_mem gs g r hr'
  · intro p hclean
    obtain ⟨tail, hok, hlen⟩ := scanEdges_ok p.map p.map.loc_dict [] hclean
    exact ⟨tail, by simpa using hok, hlen⟩

/-- C10 counterexample: in `mapZeroCoord` every listed location has a
(nonempty) connection entry and every edge cost is positive — the claim's
success conditions — yet construction fails, because location `a`'s
coordinate has a zero component and `euclidean_distance` raises. -/
theorem claim_C10_counterexample :
    (∀ le ∈ mapZeroCoord.loc_dict, ∃ s, mapZeroCoord.connection_dict.lookup le.1 = some s ∧
      s ≠ [] ∧ ∀ ce ∈ s, ∃ c, s.lookup ce.1 = some c ∧ 0 < c) ∧
    heuristicInit pZeroCoord = .error "Unknown location - a" := by
  constructor
  · decide
  · rfl

/-- Witness for C10: a location missing from `connection_dict` makes
construction fail, and on the clean map `mapW` construction succeeds with
`efficientGas` the maximum ratio over the two scanned edges. -/
theorem claim_C10_witness :
    (∃ e, heuristicInit pNoConn = .error e) ∧
    (∃ g, heuristicInit pGood = .ok g ∧
      g ∈ ([⟨1, 2, 4, 6, 3⟩, ⟨4, 6, 1, 2, 4⟩] : List ScanEdge).map ratioOf ∧
      ∀ r ∈ ([⟨1, 2, 4, 6, 3⟩, ⟨4, 6, 1, 2, 4⟩] : List ScanEdge).map ratioOf, r ≤ g) ∧
    (∃ edges, scanEdges pGood.map pGood.map.loc_dict [] = .ok edges ∧
      edges.length = (pGood.map.loc_dict.map
        (fun le => ((pGood.map.connection_dict.lookup le.1).getD []).length)).sum) := by
  refine ⟨?_, ?_, ?_⟩
  · exact claim_C10.1 pNoConn (by decide)
  · exact claim_C10.2.2.1 pGood [⟨1, 2, 4, 6, 3⟩, ⟨4, 6, 1, 2, 4⟩] rfl (by decide)
  · exact claim_C10.2.2.2 pGood (by decide)

/-- Witness for C7 at a concrete frontier: seeding `nodeA` (key `0`) and
pushing `nodeB` (key `5`) pops in non-decreasing key order, and the popped
keys are the nodes' metric values. -/
theorem claim_C7_witness :
    (0 : ℚ) = ((0 : ℚ), nodeA).2.value "g" ∧
    List.Pairwise (fun a b : ℚ × Node => a.1 ≤ b.1 ∧ (a.1 = b.1 → a.2.loc ≤ b.2.loc))
      [((0 : ℚ), nodeA), ((5 : ℚ), nodeB)] := by
  have hpop : ((Frontier.init nodeA "g").addAll [nodeB]).popSeq =
      [(0, nodeA), (5, nodeB)] := rfl
  constructor
  · exact (claim_C7 nodeA "g" [nodeB]).2 (0, nodeA)
      (by rw [hpop]; exact List.mem_cons_self _ _)
  · have h := (claim_C7 nodeA "g" [nodeB]).1
    rw [hpop] at h
    exact h

/-! ### Search-loop infrastructure (C8): observable equality of mutated
problems, expansion specifications -/

theorem Sim_refl (p : RouteProblem) : Sim p p :=
  ⟨rfl, rfl, PureEq_refl p.map⟩

theorem Sim_trans {p q r : RouteProblem} (h₁ : Sim p q) (h₂ : Sim q r) : Sim p r :=
  ⟨h₂.1.trans h₁.1, h₂.2.1.trans h₁.2.1, PureEq_trans h₁.2.2 h₂.2.2⟩

theorem Sim_symm {p q : RouteProblem} (h : Sim p q) : Sim q p :=
  ⟨h.1.symm, h.2.1.symm,
    ⟨fun l => (h.2.2.1 l).symm, fun a b => (h.2.2.2.1 a b).symm, h.2.2.2.2.symm⟩⟩

theorem result_fst (p : RouteProblem) (loc : Loc) (road : Road) :
    (p.result loc road).1 = (succsOf p.map loc).lookup road := by
  unfold RouteProblem.result
  exact get_result_fst p.map loc road

theorem result_snd_sim (p : RouteProblem) (loc : Loc) (road : Road) :
    Sim p (p.result loc road).2 :=
  ⟨rfl, rfl, get_result_snd_pureEq p.map loc road⟩

theorem action_cost_fst (p : RouteProblem) (s e : Loc) :
    (p.action_cost s e).1 = costOf p.map s e := by
  unfold RouteProblem.action_cost
  exact get_fst p.map s e

theorem action_cost_snd_sim (p : RouteProblem) (s e : Loc) :
    Sim p (p.action_cost s e).2 :=
  ⟨rfl, rfl, get_snd_pureEq p.map s e⟩

theorem actions_fst (p : RouteProblem) (loc : Loc) :
    (p.actions loc).1 = (succsOf p.map loc).map Prod.fst := by
  show (p.map.get_result_dict loc).1.map Prod.fst = (succsOf p.map loc).map Prod.fst
  rw [get_result_dict_fst]

theorem actions_snd_sim (p : RouteProblem) (loc : Loc) :
    Sim p (p.actions loc).2 :=
  ⟨rfl, rfl, get_result_dict_snd_pureEq p.map loc⟩

theorem is_goal_congr {p q : RouteProblem} (h : Sim p q) (loc : Loc) :
    q.is_goal loc = p.is_goal loc := by
  unfold RouteProblem.is_goal
  rw [h.2.1]

theorem reach_congr {p q : RouteProblem} (hsim : Sim p q) {loc : Loc}
    (h : Relation.ReflTransGen (edgeOf q.map) q.start loc) :
    Relation.ReflTransGen (edgeOf p.map) p.start loc := by
  rw [hsim.1] at h
  induction h with
  | refl => exact Relation.ReflTransGen.refl
  | tail _ hbc ih =>
    refine Relation.ReflTransGen.tail ih ?_
    obtain ⟨r, hr⟩ := hbc
    refine ⟨r, ?_⟩
    rw [← hsim.2.2.1]
    exact hr

theorem make_loc (l : Loc) (pr : Option Node) (r : Option Road) (c h : ℚ)
    (hf : Option HFun) : (Node.make l pr r c h hf).loc = l := rfl

theorem make_depth_root (l : Loc) (r : Option Road) (c h : ℚ)
    (hf : Option HFun) : (Node.make l none r c h hf).depth = 0 := rfl

theorem make_depth_child (l : Loc) (q : Node) (r : Option Road) (c h : ℚ)
    (hf : Option HFun) : (Node.make l (some q) r c h hf).depth = q.depth + 1 := rfl

theorem child_node_eq {p : RouteProblem} {n : Node} {road : Road} {cl : Loc} {c : ℚ}
    (h1 : (p.result n.loc road).1 = some cl)
    (h2 : ((p.result n.loc road).2.action_cost n.loc cl).1 = some c) :
    n.child_node p road none =
      some (Node.make cl (some n) (some road) (n.path_cost + c)
        (match n.h_fun with
         | some hf => hf cl
         | none => 0) n.h_fun,
        ((p.result n.loc road).2.action_cost n.loc cl).2) := by
  simp [Node.child_node, h1, h2]

theorem child_node_spec {p : RouteProblem} {n : Node} {road : Road} {cl : Loc}
    (hw : WFClook p.map) (hcl : (succsOf p.map n.loc).lookup road = some cl) :
    ∃ c p₂, n.child_node p road none = some (c, p₂) ∧ Sim p p₂ ∧
      c.loc = cl ∧ c.depth = n.depth + 1 := by
  have h1 : (p.result n.loc road).1 = some cl := by
    rw [result_fst]
    exact hcl
  have hsimA : Sim p (p.result n.loc road).2 := result_snd_sim p n.loc road
  obtain ⟨cost, hcost⟩ := Option.isSome_iff_exists.mp (hw n.loc road cl hcl)
  have h2 : ((p.result n.loc road).2.action_cost n.loc cl).1 = some cost := by
    rw [action_cost_fst, hsimA.2.2.2.1 n.loc cl]
    exact hcost
  refine ⟨_, _, child_node_eq h1 h2, ?_, make_loc _ _ _ _ _ _,
    make_depth_child _ _ _ _ _ _⟩
  exact Sim_trans hsimA (action_cost_snd_sim _ n.loc cl)

theorem expandGo_spec {n : Node} :
    ∀ (roads : List Road) (p : RouteProblem) (acc : List Node),
      WFClook p.map →
      (∀ r ∈ roads, ∃ cl, (succsOf p.map n.loc).lookup r = some cl) →
      ∃ cs p', expandGo n roads p acc = some (cs, p') ∧ Sim p p' ∧
        cs.length = acc.length + roads.length ∧
        ∀ c ∈ cs, c ∈ acc ∨ (edgeOf p.map n.loc c.loc ∧ c.depth = n.depth + 1) := by
  intro roads
  induction roads with
  | nil =>
    intro p acc _ _
    exact ⟨acc, p, rfl, Sim_refl p, by simp, fun c hc => Or.inl hc⟩
  | cons road rest ih =>
    intro p acc hw hres
    obtain ⟨cl, hcl⟩ := hres road (List.mem_cons_self _ _)
    obtain ⟨c, p₂, hcn, hsim2, hcloc, hcdepth⟩ := child_node_spec hw hcl
    have hstep : expandGo n (road :: rest) p acc = expandGo n rest p₂ (acc ++ [c]) := by
      simp [expandGo, hcn]
    rw [hstep]
    obtain ⟨cs, p', hgo, hsim', hlen, hmem⟩ := ih p₂ (acc ++ [c])
      (WFClook_congr hsim2.2.2 hw)
      (fun r hr => by
        rw [hsim2.2.2.1 n.loc]
        exact hres r (List.mem_cons_of_mem _ hr))
    refine ⟨cs, p', hgo, Sim_trans hsim2 hsim', ?_, ?_⟩
    · rw [hlen]
      simp
      omega
    · intro c' hc'
      rcases hmem c' hc' with hacc | hedge
      · rcases List.mem_append.mp hacc with hin | hone
        · exact Or.inl hin
        · have : c' = c := by simpa using hone
          subst this
          refine Or.inr ⟨⟨road, ?_⟩, hcdepth⟩
          rw [hcloc]
          exact hcl
      · refine Or.inr ⟨?_, hedge.2⟩
        obtain ⟨r, hr⟩ := hedge.1
        refine ⟨r, ?_⟩
        rw [← hsim2.2.2.1 n.loc]
        exact hr

theorem expand_spec {p : RouteProblem} {n : Node} (hw : WFClook p.map) :
    ∃ cs p', n.expand p = some (cs, p') ∧ Sim p p' ∧
      (depth_limit ≤ n.depth → cs = []) ∧
      cs.length ≤ (succsOf p.map n.loc).length ∧
      ∀ c ∈ cs, edgeOf p.map n.loc c.loc ∧ c.depth = n.depth + 1 := by
  by_cases hd : n.depth ≥ depth_limit
  · refine ⟨[], p, ?_, Sim_refl p, fun _ => rfl, by simp, by simp⟩
    unfold Node.expand
    rw [if_pos hd]
  · have hact1 : (p.actions n.loc).1 = (succsOf p.map n.loc).map Prod.fst :=
      actions_fst p n.loc
    have hsim0 : Sim p (p.actions n.loc).2 := actions_snd_sim p n.loc
    have hres : ∀ r ∈ (p.actions n.loc).1, ∃ cl,
        (succsOf (p.actions n.loc).2.map n.loc).lookup r = some cl := by
      intro r hr
      rw [hact1] at hr
      have hsome := lookup_isSome_of_mem_keys hr
      rw [hsim0.2.2.1 n.loc]
      obtain ⟨cl, hcl⟩ := Option.isSome_iff_exists.mp hsome
      exact ⟨cl, hcl⟩
    obtain ⟨cs, p', hgo, hsim1, hlen, hmem⟩ := expandGo_spec (p.actions n.loc).1
      (p.actions n.loc).2 [] (WFClook_congr hsim0.2.2 (by exact ‹WFClook p.map›)) hres
    refine ⟨cs, p', ?_, Sim_trans hsim0 hsim1, fun hc => absurd hc hd, ?_, ?_⟩
    · unfold Node.expand
      rw [if_neg hd]
      exact hgo
    · rw [hlen, hact1]
      simp
    · intro c hc
      rcases hmem c hc with hacc | hedge
      · simp at hacc
      · refine ⟨?_, hedge.2⟩
        obtain ⟨r, hr⟩ := hedge.1
        refine ⟨r, ?_⟩
        rw [← hsim0.2.2.1 n.loc]
        exact hr

/-! ### Search-loop infrastructure (C8): measures and frontier steps -/

theorem succs_len_le_maxOut (m : RoadMap) (loc : Loc) :
    (succsOf m loc).length ≤ maxOut m := by
  unfold succsOf maxOut
  induction m.road_dict with
  | nil => simp [List.lookup]
  | cons kv t ih =>
    obtain ⟨k, v⟩ := kv
    rw [List.lookup]
    cases hk : (loc == k) with
    | true =>
      simp only [List.foldr_cons, Option.getD_some]
      exact le_max_left _ _
    | false =>
      simp only [List.foldr_cons]
      exact le_trans ih (le_max_right _ _)

theorem sum_map_const {α : Type} (g : α → Nat) (X : Nat) :
    ∀ (l : List α), (∀ c ∈ l, g c = X) → (l.map g).sum = l.length * X := by
  intro l
  induction l with
  | nil => intro _; simp
  | cons c t ih =>
    intro h
    simp only [List.map_cons, List.sum_cons, List.length_cons]
    rw [h c (List.mem_cons_self _ _), ih (fun c' hc' => h c' (List.mem_cons_of_mem _ hc'))]
    ring

theorem measEntries_perm (B : Nat) {l₁ l₂ : List (ℚ × Node)} (h : l₁.Perm l₂) :
    measEntries B l₁ = measEntries B l₂ :=
  (h.map _).sum_eq

theorem measEntries_cons (B : Nat) (e : ℚ × Node) (l : List (ℚ × Node)) :
    measEntries B (e :: l) = nodeMeasure B e.2 + measEntries B l := by
  simp [measEntries]

theorem measEntries_append (B : Nat) (l₁ l₂ : List (ℚ × Node)) :
    measEntries B (l₁ ++ l₂) = measEntries B l₁ + measEntries B l₂ := by
  simp [measEntries]

theorem measNodes_perm (B : Nat) {l₁ l₂ : List Node} (h : l₁.Perm l₂) :
    measNodes B l₁ = measNodes B l₂ :=
  (h.map _).sum_eq

theorem measNodes_cons (B : Nat) (n : Node) (l : List Node) :
    measNodes B (n :: l) = nodeMeasure B n + measNodes B l := by
  simp [measNodes]

theorem measNodes_append (B : Nat) (l₁ l₂ : List Node) :
    measNodes B (l₁ ++ l₂) = measNodes B l₁ + measNodes B l₂ := by
  simp [measNodes]

theorem nodeMeasure_pos (B : Nat) (n : Node) : 1 ≤ nodeMeasure B n :=
  Nat.one_le_pow _ _ (Nat.succ_pos B)

theorem nodeMeasure_child (B : Nat) {c n : Node} (h : c.depth = n.depth + 1) :
    nodeMeasure B c = (B + 1) ^ (depth_limit - n.depth) := by
  unfold nodeMeasure
  rw [h]
  congr 1
  omega

theorem nodeMeasure_parent (B : Nat) {n : Node} (h : n.depth < depth_limit) :
    nodeMeasure B n = (B + 1) * (B + 1) ^ (depth_limit - n.depth) := by
  unfold nodeMeasure
  rw [show depth_limit + 1 - n.depth = (depth_limit - n.depth) + 1 by omega]
  rw [pow_succ]
  ring

theorem pop_spec {f : Frontier} {n : Node} {f' : Frontier} (h : f.pop = some (n, f')) :
    ∃ k, f.fringe.Perm ((k, n) :: f'.fringe) ∧ (k, n) ∈ f.fringe ∧
      f'.sort_by = f.sort_by := by
  obtain ⟨sb, fr⟩ := f
  cases fr with
  | nil => simp [Frontier.pop] at h
  | cons e es =>
    simp only [Frontier.pop] at h
    injection h with h'
    have h1 : (selectMin e es).1.2 = n := congrArg Prod.fst h'
    have h2 : (⟨sb, (selectMin e es).2⟩ : Frontier) = f' := congrArg Prod.snd h'
    refine ⟨(selectMin e es).1.1, ?_, ?_, ?_⟩
    · rw [← h2]
      have hperm := (selectMin_perm e es).symm
      have heta : ((selectMin e es).1.1, n) = (selectMin e es).1 := by
        rw [← h1]
      rw [heta]
      exact hperm
    · have heta : ((selectMin e es).1.1, n) = (selectMin e es).1 := by
        rw [← h1]
      rw [heta]
      exact (selectMin_perm e es).subset (List.mem_cons_self _ _)
    · rw [← h2]

theorem frontier_self_compare_false (f : Frontier) (child : Node) :
    (f.contains child && decide (f.getItem child > f.getItem child)) = false := by
  have hdec : decide (f.getItem child > f.getItem child) = false := by
    simp [lt_irrefl]
  rw [hdec, Bool.and_false]

theorem stepShape_ucs : StepShape pqStepUCS := by
  intro rc f r c
  unfold pqStepUCS
  by_cases hrc : rc
  · by_cases hm : r.any (fun n => Node.beq n c)
    · rw [if_pos hrc, if_pos hm, if_neg (by rw [frontier_self_compare_false]; simp)]
      exact ⟨rfl, Or.inl rfl⟩
    · rw [if_pos hrc, if_neg hm]
      exact ⟨rfl, Or.inr rfl⟩
  · rw [if_neg hrc]
    exact ⟨rfl, Or.inr rfl⟩

theorem stepShape_greedy : StepShape pqStepGreedy := by
  intro rc f r c
  unfold pqStepGreedy
  by_cases hrc : rc
  · by_cases hm : r.any (fun n => Node.beq n c)
    · rw [if_pos hrc, if_pos hm]
      exact ⟨rfl, Or.inl rfl⟩
    · rw [if_pos hrc, if_neg hm]
      exact ⟨rfl, Or.inr rfl⟩
  · rw [if_neg hrc]
    exact ⟨rfl, Or.inr rfl⟩

theorem foldl_step_spec (step : Bool → Frontier × List Node → Node → Frontier × List Node)
    (hs : StepShape step) (rc : Bool) (B : Nat) :
    ∀ (cs : List Node) (f : Frontier) (r : List Node),
      ((cs.foldl (step rc) (f, r)).1.sort_by = f.sort_by) ∧
      (∀ e ∈ (cs.foldl (step rc) (f, r)).1.fringe,
        e ∈ f.fringe ∨ ∃ c ∈ cs, e.2 = c) ∧
      (measEntries B (cs.foldl (step rc) (f, r)).1.fringe ≤
        measEntries B f.fringe + (cs.map (nodeMeasure B)).sum) := by
  intro cs
  induction cs with
  | nil =>
    intro f r
    exact ⟨rfl, fun e he => Or.inl he, by simp⟩
  | cons c ct ih =>
    intro f r
    rw [List.foldl_cons]
    rcases hst : step rc (f, r) c with ⟨f₁, r₁⟩
    have hshape := hs rc f r c
    rw [hst] at hshape
    obtain ⟨hsort₁, hfr₁⟩ := hshape
    have IH := ih f₁ r₁
    refine ⟨IH.1.trans hsort₁, ?_, ?_⟩
    · intro e he
      rcases IH.2.1 e he with h1 | ⟨c', hc', he'⟩
      · rcases hfr₁ with hfr | hfr
        · rw [hfr] at h1
          exact Or.inl h1
        · rw [hfr] at h1
          rcases List.mem_append.mp h1 with h2 | h2
          · exact Or.inl h2
          · have : e = (c.value f.sort_by, c) := by simpa using h2
            exact Or.inr ⟨c, List.mem_cons_self _ _, by rw [this]⟩
      · exact Or.inr ⟨c', List.mem_cons_of_mem _ hc', he'⟩
    · have hm₁ : measEntries B f₁.fringe ≤ measEntries B f.fringe + nodeMeasure B c := by
        rcases hfr₁ with hfr | hfr
        · rw [hfr]
          omega
        · rw [hfr, measEntries_append]
          simp [measEntries]
      calc measEntries B (ct.foldl (step rc) (f₁, r₁)).1.fringe
          ≤ measEntries B f₁.fringe + (ct.map (nodeMeasure B)).sum := IH.2.2
        _ ≤ measEntries B f.fringe + nodeMeasure B c + (ct.map (nodeMeasure B)).sum := by
            omega
        _ = measEntries B f.fringe + ((c :: ct).map (nodeMeasure B)).sum := by
            simp
            omega

theorem pqLoop_unreachable
    (step : Bool → Frontier × List Node → Node → Frontier × List Node)
    (hs : StepShape step) (rc : Bool) (B : Nat) :
    ∀ (fuel : Nat) (f : Frontier) (reached : List Node) (p : RouteProblem),
      WFClook p.map →
      (∀ loc, (succsOf p.map loc).length ≤ B) →
      (∀ loc, Relation.ReflTransGen (edgeOf p.map) p.start loc → p.is_goal loc = false) →
      (∀ e ∈ f.fringe, Relation.ReflTransGen (edgeOf p.map) p.start e.2.loc ∧
        e.2.depth ≤ depth_limit) →
      measEntries B f.fringe < fuel →
      pqLoop step rc fuel f reached p = some (.ok none) := by
  intro fuel
  induction fuel with
  | zero =>
    intro f r p _ _ _ _ hm
    exact absurd hm (Nat.not_lt_zero _)
  | succ fuel ih =>
    intro f reached p hw hB hgoal hinv hm
    cases hpop : f.pop with
    | none => simp [pqLoop, hpop]
    | some nf =>
      obtain ⟨node, f₁⟩ := nf
      obtain ⟨k, hperm, hkmem, _⟩ := pop_spec hpop
      have hninv := hinv (k, node) hkmem
      have hng : p.is_goal node.loc = false := hgoal node.loc hninv.1
      obtain ⟨cs, p₁, hexp, hsim, hdempty, hlen, hcs⟩ := expand_spec (n := node) hw
      have hloop : pqLoop step rc (fuel + 1) f reached p =
          pqLoop step rc fuel (cs.foldl (step rc) (f₁, reached)).1
            (cs.foldl (step rc) (f₁, reached)).2 p₁ := by
        simp [pqLoop, hpop, hng, hexp]
      rw [hloop]
      have hfold := foldl_step_spec step hs rc B cs f₁ reached
      have hsub : ∀ e ∈ f₁.fringe, e ∈ f.fringe := by
        intro e he
        exact hperm.symm.subset (List.mem_cons_of_mem _ he)
      apply ih
      · exact WFClook_congr hsim.2.2 hw
      · intro loc
        rw [hsim.2.2.1 loc]
        exact hB loc
      · intro loc hr
        rw [is_goal_congr hsim loc]
        exact hgoal loc (reach_congr hsim hr)
      · intro e he
        rcases hfold.2.1 e he with h1 | ⟨c, hc, he2⟩
        · have h2 := hinv e (hsub e h1)
          exact ⟨reach_congr (Sim_symm hsim) h2.1, h2.2⟩
        · have hedge := hcs c hc
          have hd : node.depth < depth_limit := by
            by_contra hctr
            push_neg at hctr
            rw [hdempty hctr] at hc
            simp at hc
          constructor
          · rw [he2]
            have hreach : Relation.ReflTransGen (edgeOf p.map) p.start c.loc :=
              Relation.ReflTransGen.tail hninv.1 hedge.1
            exact reach_congr (Sim_symm hsim) hreach
          · rw [he2, hedge.2]
            omega
      · -- measure strictly decreases
        have hmf : measEntries B f.fringe = nodeMeasure B node + measEntries B f₁.fringe := by
          rw [measEntries_perm B hperm, measEntries_cons]
        have hsum : (cs.map (nodeMeasure B)).sum =
            cs.length * (B + 1) ^ (depth_limit - node.depth) := by
          apply sum_map_const
          intro c hc
          exact nodeMeasure_child B (hcs c hc).2
        by_cases hd : node.depth < depth_limit
        · have hX : 1 ≤ (B + 1) ^ (depth_limit - node.depth) :=
            Nat.one_le_pow _ _ (Nat.succ_pos B)
          have hnm : nodeMeasure B node = (B + 1) * (B + 1) ^ (depth_limit - node.depth) :=
            nodeMeasure_parent B hd
          have hcount : cs.length ≤ B := le_trans hlen (hB node.loc)
          have hsumle : (cs.map (nodeMeasure B)).sum ≤
              B * (B + 1) ^ (depth_limit - node.depth) := by
            rw [hsum]
            exact Nat.mul_le_mul_right _ hcount
          have hmain := hfold.2.2
          have hBX : B * (B + 1) ^ (depth_limit - node.depth) + 1 ≤
              (B + 1) * (B + 1) ^ (depth_limit - node.depth) := by
            have : (B + 1) * (B + 1) ^ (depth_limit - node.depth) =
                B * (B + 1) ^ (depth_limit - node.depth) +
                  (B + 1) ^ (depth_limit - node.depth) := by ring
            omega
          omega
        · push_neg at hd
          have hcs0 : cs = [] := hdempty hd
          subst hcs0
          have hmain := hfold.2.2
          simp only [List.map_nil, List.sum_nil] at hmain
          have hpos := nodeMeasure_pos B node
          omega

theorem pa0_pop_spec {f : PA0Frontier} {n : Node} {f' : PA0Frontier}
    (h : f.pop = some (n, f')) :
    f.fringe.Perm (n :: f'.fringe) ∧ n ∈ f.fringe := by
  obtain ⟨st, fr⟩ := f
  cases st
  · cases fr with
    | nil => simp [PA0Frontier.pop] at h
    | cons x xs =>
      have hx : PA0Frontier.pop ⟨false, x :: xs⟩ = some (x, ⟨false, xs⟩) := by
        simp [PA0Frontier.pop]
      rw [hx] at h
      injection h with h'
      have h1 : x = n := congrArg Prod.fst h'
      have h2 : (⟨false, xs⟩ : PA0Frontier) = f' := congrArg Prod.snd h'
      subst h1
      rw [← h2]
      exact ⟨List.Perm.refl _, List.mem_cons_self _ _⟩
  · rcases fr.eq_nil_or_concat with rfl | ⟨xs, x, hfr⟩
    · simp [PA0Frontier.pop] at h
    · rw [List.concat_eq_append] at hfr
      subst hfr
      rw [pa0_pop_stack_concat] at h
      injection h with h'
      have h1 : x = n := congrArg Prod.fst h'
      have h2 : (⟨true, xs⟩ : PA0Frontier) = f' := congrArg Prod.snd h'
      subst h1
      rw [← h2]
      constructor
      · exact List.perm_append_singleton _ _
      · simp

theorem pa0Step_shape (rc : Bool) (f : PA0Frontier) (v : List Node) (c : Node) :
    ((pa0Step rc (f, v) c).1.stack = f.stack) ∧
    ((pa0Step rc (f, v) c).1.fringe = f.fringe ∨
      (pa0Step rc (f, v) c).1.fringe = f.fringe ++ [c]) := by
  unfold pa0Step
  by_cases hrc : rc
  · by_cases hm : v.any (fun n => Node.beq n c)
    · rw [if_pos hrc, if_pos hm]
      exact ⟨rfl, Or.inl rfl⟩
    · rw [if_pos hrc, if_neg hm]
      exact ⟨rfl, Or.inr rfl⟩
  · rw [if_neg hrc]
    exact ⟨rfl, Or.inr rfl⟩

theorem pa0_foldl_spec (rc : Bool) (B : Nat) :
    ∀ (cs : List Node) (f : PA0Frontier) (v : List Node),
      (∀ x ∈ (cs.foldl (pa0Step rc) (f, v)).1.fringe, x ∈ f.fringe ∨ x ∈ cs) ∧
      (measNodes B (cs.foldl (pa0Step rc) (f, v)).1.fringe ≤
        measNodes B f.fringe + (cs.map (nodeMeasure B)).sum) := by
  intro cs
  induction cs with
  | nil =>
    intro f v
    exact ⟨fun x hx => Or.inl hx, by simp⟩
  | cons c ct ih =>
    intro f v
    rw [List.foldl_cons]
    rcases hst : pa0Step rc (f, v) c with ⟨f₁, v₁⟩
    have hshape := pa0Step_shape rc f v c
    rw [hst] at hshape
    obtain ⟨_, hfr₁⟩ := hshape
    have IH := ih f₁ v₁
    refine ⟨?_, ?_⟩
    · intro x hx
      rcases IH.1 x hx with h1 | h1
      · rcases hfr₁ with hfr | hfr
        · rw [hfr] at h1
          exact Or.inl h1
        · rw [hfr] at h1
          rcases List.mem_append.mp h1 with h2 | h2
          · exact Or.inl h2
          · have : x = c := by simpa using h2
            exact Or.inr (this ▸ List.mem_cons_self _ _)
      · exact Or.inr (List.mem_cons_of_mem _ h1)
    · have hm₁ : measNodes B f₁.fringe ≤ measNodes B f.fringe + nodeMeasure B c := by
        rcases hfr₁ with hfr | hfr
        · rw [hfr]
          omega
        · rw [hfr, measNodes_append]
          simp [measNodes]
      calc measNodes B (ct.foldl (pa0Step rc) (f₁, v₁)).1.fringe
          ≤ measNodes B f₁.fringe + (ct.map (nodeMeasure B)).sum := IH.2
        _ ≤ measNodes B f.fringe + nodeMeasure B c + (ct.map (nodeMeasure B)).sum := by
            omega
        _ = measNodes B f.fringe + ((c :: ct).map (nodeMeasure B)).sum := by
            simp
            omega

theorem pa0Loop_unreachable (rc : Bool) (B : Nat) :
    ∀ (fuel : Nat) (f : PA0Frontier) (visited : List Node) (p : RouteProblem),
      WFClook p.map →
      (∀ loc, (succsOf p.map loc).length ≤ B) →
      (∀ loc, Relation.ReflTransGen (edgeOf p.map) p.start loc → p.is_goal loc = false) →
      (∀ n ∈ f.fringe, Relation.ReflTransGen (edgeOf p.map) p.start n.loc ∧
        n.depth ≤ depth_limit) →
      measNodes B f.fringe < fuel →
      pa0Loop rc fuel f visited p = some (.ok none) := by
  intro fuel
  induction fuel with
  | zero =>
    intro f v p _ _ _ _ hm
    exact absurd hm (Nat.not_lt_zero _)
  | succ fuel ih =>
    intro f visited p hw hB hgoal hinv hm
    cases hpop : f.pop with
    | none => simp [pa0Loop, hpop]
    | some nf =>
      obtain ⟨node, f₁⟩ := nf
      obtain ⟨hperm, hkmem⟩ := pa0_pop_spec hpop
      have hninv := hinv node hkmem
      have hng : p.is_goal node.loc = false := hgoal node.loc hninv.1
      obtain ⟨cs, p₁, hexp, hsim, hdempty, hlen, hcs⟩ := expand_spec (n := node) hw
      have hloop : pa0Loop rc (fuel + 1) f visited p =
          pa0Loop rc fuel (cs.foldl (pa0Step rc) (f₁, visited)).1
            (cs.foldl (pa0Step rc) (f₁, visited)).2 p₁ := by
        simp [pa0Loop, hpop, hng, hexp]
      rw [hloop]
      have hfold := pa0_foldl_spec rc B cs f₁ visited
      have hsub : ∀ x ∈ f₁.fringe, x ∈ f.fringe := by
        intro x hx
        exact hperm.symm.subset (List.mem_cons_of_mem _ hx)
      apply ih
      · exact WFClook_congr hsim.2.2 hw
      · intro loc
        rw [hsim.2.2.1 loc]
        exact hB loc
      · intro loc hr
        rw [is_goal_congr hsim loc]
        exact hgoal loc (reach_congr hsim hr)
      · intro x hx
        rcases hfold.1 x hx with h1 | hc
        · have h2 := hinv x (hsub x h1)
          exact ⟨reach_congr (Sim_symm hsim) h2.1, h2.2⟩
        · have hedge := hcs x hc
          have hd : node.depth < depth_limit := by
            by_contra hctr
            push_neg at hctr
            rw [hdempty hctr] at hc
            simp at hc
          constructor
          · exact reach_congr (Sim_symm hsim)
              (Relation.ReflTransGen.tail hninv.1 hedge.1)
          · rw [hedge.2]
            omega
      · have hmf : measNodes B f.fringe = nodeMeasure B node + measNodes B f₁.fringe := by
          rw [measNodes_perm B hperm, measNodes_cons]
        have hsum : (cs.map (nodeMeasure B)).sum =
            cs.length * (B + 1) ^ (depth_limit - node.depth) := by
          apply sum_map_const
          intro c hc
          exact nodeMeasure_child B (hcs c hc).2
        by_cases hd : node.depth < depth_limit
        · have hnm : nodeMeasure B node = (B + 1) * (B + 1) ^ (depth_limit - node.depth) :=
            nodeMeasure_parent B hd
          have hcount : cs.length ≤ B := le_trans hlen (hB node.loc)
          have hsumle : (cs.map (nodeMeasure B)).sum ≤
              B * (B + 1) ^ (depth_limit - node.depth) := by
            rw [hsum]
            exact Nat.mul_le_mul_right _ hcount
          have hmain := hfold.2
          have hBX : B * (B + 1) ^ (depth_limit - node.depth) + 1 ≤
              (B + 1) * (B + 1) ^ (depth_limit - node.depth) := by
            have h1 : 1 ≤ (B + 1) ^ (depth_limit - node.depth) :=
              Nat.one_le_pow _ _ (Nat.succ_pos B)
            have h2 : (B + 1) * (B + 1) ^ (depth_limit - node.depth) =
                B * (B + 1) ^ (depth_limit - node.depth) +
                  (B + 1) ^ (depth_limit - node.depth) := by ring
            omega
          omega
        · push_neg at hd
          have hcs0 : cs = [] := hdempty hd
          subst hcs0
          have hmain := hfold.2
          simp only [List.map_nil, List.sum_nil] at hmain
          have hpos := nodeMeasure_pos B node
          omega

/-- C8: for every problem whose goal is unreachable from the start (and no
location reachable from the start is the goal), each of the five search
functions terminates within a computable fuel bound and returns `None`
(no uncaught exception), with or without repeated-state checking.  The
`WFC` hypothesis (named roads have cost entries, guaranteed by `add_road`)
rules out Python's `TypeError` during expansion; termination comes from
the depth limit 20 bounding expansion and the frontier emptying. -/
theorem claim_C8 : ∀ (p : RouteProblem) (rc : Bool) (h : HFun),
    WFC p.map →
    (∀ loc, Relation.ReflTransGen (edgeOf p.map) p.start loc → p.is_goal loc = false) →
    ∃ fuel, BFS p rc fuel = some (.ok none) ∧ DFS p rc fuel = some (.ok none) ∧
      uniform_cost_search p rc fuel = some (.ok none) ∧
      greedy_search p h rc fuel = some (.ok none) ∧
      a_star_search p h rc fuel = some (.ok none) := by
  intro p rc h hwfc hgoal
  have hw := WFC_to_look hwfc
  have hB : ∀ loc, (succsOf p.map loc).length ≤ maxOut p.map :=
    fun loc => succs_len_le_maxOut p.map loc
  have hroot : p.is_goal p.start = false := hgoal p.start Relation.ReflTransGen.refl
  have hrootinv : ∀ (v : ℚ) (sb : String),
      ∀ e ∈ (Frontier.init (Node.make p.start none none 0 0 none) sb).fringe,
        Relation.ReflTransGen (edgeOf p.map) p.start e.2.loc ∧
          e.2.depth ≤ depth_limit := by
    intro v sb e he
    simp only [Frontier.init, List.mem_singleton] at he
    subst he
    exact ⟨Relation.ReflTransGen.refl, Nat.zero_le _⟩
  have hrootinvh : ∀ (hf : HFun) (sb : String),
      ∀ e ∈ (Frontier.init (Node.make p.start none none 0 0 (some hf)) sb).fringe,
        Relation.ReflTransGen (edgeOf p.map) p.start e.2.loc ∧
          e.2.depth ≤ depth_limit := by
    intro hf sb e he
    simp only [Frontier.init, List.mem_singleton] at he
    subst he
    exact ⟨Relation.ReflTransGen.refl, Nat.zero_le _⟩
  have hmeas : ∀ (n : Node), n.depth = 0 →
      nodeMeasure (maxOut p.map) n < (maxOut p.map + 1) ^ (depth_limit + 1) + 1 := by
    intro n hn
    unfold nodeMeasure
    rw [hn, Nat.sub_zero]
    omega
  refine ⟨(maxOut p.map + 1) ^ (depth_limit + 1) + 1, ?_, ?_, ?_, ?_, ?_⟩
  · have hb : BFS p rc ((maxOut p.map + 1) ^ (depth_limit + 1) + 1) =
        pa0Loop rc ((maxOut p.map + 1) ^ (depth_limit + 1) + 1)
          (PA0Frontier.init (Node.make p.start none none 0 0 none) false)
          [Node.make p.start none none 0 0 none] p := by
      simp [BFS]
    rw [hb]
    apply pa0Loop_unreachable rc (maxOut p.map) _ _ _ _ hw hB hgoal
    · intro n hn
      simp only [PA0Frontier.init, List.mem_singleton] at hn
      subst hn
      exact ⟨Relation.ReflTransGen.refl, Nat.zero_le _⟩
    · simp only [PA0Frontier.init, measNodes, List.map_cons, List.map_nil,
        List.sum_cons, List.sum_nil]
      have := hmeas (Node.make p.start none none 0 0 none) (make_depth_root _ _ _ _ _)
      omega
  · have hb : DFS p rc ((maxOut p.map + 1) ^ (depth_limit + 1) + 1) =
        pa0Loop rc ((maxOut p.map + 1) ^ (depth_limit + 1) + 1)
          (PA0Frontier.init (Node.make p.start none none 0 0 none) true)
          [Node.make p.start none none 0 0 none] p := by
      simp [DFS]
    rw [hb]
    apply pa0Loop_unreachable rc (maxOut p.map) _ _ _ _ hw hB hgoal
    · intro n hn
      simp only [PA0Frontier.init, List.mem_singleton] at hn
      subst hn
      exact ⟨Relation.ReflTransGen.refl, Nat.zero_le _⟩
    · simp only [PA0Frontier.init, measNodes, List.map_cons, List.map_nil,
        List.sum_cons, List.sum_nil]
      have := hmeas (Node.make p.start none none 0 0 none) (make_depth_root _ _ _ _ _)
      omega
  · have hb : uniform_cost_search p rc ((maxOut p.map + 1) ^ (depth_limit + 1) + 1) =
        pqLoop pqStepUCS rc ((maxOut p.map + 1) ^ (depth_limit + 1) + 1)
          (Frontier.init (Node.make p.start none none 0 0 none) "g")
          [Node.make p.start none none 0 0 none] p := by
      simp [uniform_cost_search, make_loc, hroot]
    rw [hb]
    apply pqLoop_unreachable pqStepUCS stepShape_ucs rc (maxOut p.map) _ _ _ _
      hw hB hgoal (hrootinv 0 "g")
    simp only [Frontier.init, measEntries, List.map_cons, List.map_nil,
      List.sum_cons, List.sum_nil]
    have := hmeas (Node.make p.start none none 0 0 none) (make_depth_root _ _ _ _ _)
    omega
  · have hb : greedy_search p h rc ((maxOut p.map + 1) ^ (depth_limit + 1) + 1) =
        pqLoop pqStepGreedy rc ((maxOut p.map + 1) ^ (depth_limit + 1) + 1)
          (Frontier.init (Node.make p.start none none 0 0 (some h)) "h")
          [Node.make p.start none none 0 0 (some h)] p := by
      simp [greedy_search, make_loc, hroot]
    rw [hb]
    apply pqLoop_unreachable pqStepGreedy stepShape_greedy rc (maxOut p.map) _ _ _ _
      hw hB hgoal (hrootinvh h "h")
    simp only [Frontier.init, measEntries, List.map_cons, List.map_nil,
      List.sum_cons, List.sum_nil]
    have := hmeas (Node.make p.start none none 0 0 (some h)) (make_depth_root _ _ _ _ _)
    omega
  · have hb : a_star_search p h rc ((maxOut p.map + 1) ^ (depth_limit + 1) + 1) =
        pqLoop pqStepUCS rc ((maxOut p.map + 1) ^ (depth_limit + 1) + 1)
          (Frontier.init (Node.make p.start none none 0 0 (some h)) "f")
          [Node.make p.start none none 0 0 (some h)] p := by
      simp [a_star_search, make_loc, hroot]
    rw [hb]
    apply pqLoop_unreachable pqStepUCS stepShape_ucs rc (maxOut p.map) _ _ _ _
      hw hB hgoal (hrootinvh h "f")
    simp only [Frontier.init, measEntries, List.map_cons, List.map_nil,
      List.sum_cons, List.sum_nil]
    have := hmeas (Node.make p.start none none 0 0 (some h)) (make_depth_root _ _ _ _ _)
    omega

/-- Witness for C8 on the empty map: the goal `b` is unreachable from the
start `a`, and all five searches (with repeat checking) return `None`
within the fuel bound. -/
theorem claim_C8_witness :
    ∃ fuel, BFS pUnreach true fuel = some (.ok none) ∧
      DFS pUnreach true fuel = some (.ok none) ∧
      uniform_cost_search pUnreach true fuel = some (.ok none) ∧
      greedy_search pUnreach (fun _ => 0) true fuel = some (.ok none) ∧
      a_star_search pUnreach (fun _ => 0) true fuel = some (.ok none) := by
  apply claim_C8 pUnreach true (fun _ => 0)
  · decide
  · intro loc hr
    have hloc : loc = "a" := by
      induction hr with
      | refl => rfl
      | tail _ hbc _ =>
        obtain ⟨r, hrr⟩ := hbc
        simp [succsOf, pUnreach, mapEmpty] at hrr
    subst hloc
    decide
